import Mathlib

/-!
Verification of the changelog state machine of `git-changelog-manager`.

The development shallowly embeds the core of `src/lib/ReleaseManager.js`
(the `ChangelogManager` and `ReleaseManager` classes) and the config
construction of `src/bin/changelog-release.js`.  JavaScript strings are
modelled as Lean `String` / `List Char`; the filesystem directory that
holds the changelog documents is an association list from file names to
file contents; the `semver` package operations used by the source
(`parse`, `inc`, `rcompare`) are modelled on a numeric version triple;
`crypto.createHash('sha256')` is implemented bit-faithfully on `Nat`.
Network collaborators (the AI polishing services) are modelled as
explicit parameters, following the spec which treats them as external
capabilities with a defined contract.
-/

/-! ### JavaScript string primitives on `List Char` -/

/-- First index at which `pat` occurs in `s`, scanning left to right.
Models the search used by JavaScript `String.prototype.includes` and by
the lazy regex match in `renameDraftFile`. -/
def findSub (s pat : List Char) : Option Nat :=
  match s with
  | [] => if pat.isEmpty then some 0 else none
  | _ :: rest => if pat.isPrefixOf s then some 0 else (findSub rest pat).map (· + 1)

/-- JavaScript `s.includes(pat)`. -/
def listIncludes (s pat : List Char) : Bool :=
  (findSub s pat).isSome

/-- JavaScript `s.split(c)` for a one-character separator: always returns a
non-empty list of separator-free parts. -/
def splitChar (c : Char) : List Char → List (List Char)
  | [] => [[]]
  | x :: xs =>
    if x = c then [] :: splitChar c xs
    else
      match splitChar c xs with
      | [] => [[x]]
      | p :: ps => (x :: p) :: ps

/-- JavaScript `parts.join(c)` for a one-character separator. -/
def joinChar (c : Char) : List (List Char) → List Char
  | [] => []
  | [p] => p
  | p :: ps => p ++ c :: joinChar c ps

theorem splitChar_ne_nil (c : Char) (s : List Char) : splitChar c s ≠ [] := by
  cases s with
  | nil => simp [splitChar]
  | cons x xs =>
    simp only [splitChar]
    split
    · simp
    · split <;> simp

theorem splitChar_sep_not_mem (c : Char) (s : List Char) :
    ∀ p ∈ splitChar c s, c ∉ p := by
  induction s with
  | nil => simp [splitChar]
  | cons x xs ih =>
    intro p hp
    simp only [splitChar] at hp
    by_cases hx : x = c
    · rw [if_pos hx] at hp
      rcases List.mem_cons.mp hp with h | h
      · simp [h]
      · exact ih p h
    · rw [if_neg hx] at hp
      rcases hq : splitChar c xs with _ | ⟨q, qs⟩
      · exact absurd hq (splitChar_ne_nil c xs)
      · rw [hq] at hp
        rcases List.mem_cons.mp hp with h | h
        · subst h
          intro hmem
          rcases List.mem_cons.mp hmem with h | h
          · exact hx h.symm
          · exact ih q (by rw [hq]; exact List.mem_cons_self q qs) h
        · exact ih p (by rw [hq]; exact List.mem_cons_of_mem q h)

theorem joinChar_splitChar (c : Char) (s : List Char) :
    joinChar c (splitChar c s) = s := by
  induction s with
  | nil => simp [splitChar, joinChar]
  | cons x xs ih =>
    simp only [splitChar]
    by_cases hx : x = c
    · rw [if_pos hx]
      rcases hq : splitChar c xs with _ | ⟨q, qs⟩
      · exact absurd hq (splitChar_ne_nil c xs)
      · rw [hq] at ih
        show c :: joinChar c (q :: qs) = x :: xs
        rw [ih, hx]
    · rw [if_neg hx]
      rcases hq : splitChar c xs with _ | ⟨q, qs⟩
      · exact absurd hq (splitChar_ne_nil c xs)
      · rw [hq] at ih
        cases qs with
        | nil => simpa [joinChar] using congrArg (x :: ·) ih
        | cons r rs =>
          simp only [joinChar] at ih ⊢
          rw [List.cons_append, ih]

/-- Splitting a separator-free list is the identity (single part). -/
theorem splitChar_of_not_mem (c : Char) (s : List Char) (h : c ∉ s) :
    splitChar c s = [s] := by
  induction s with
  | nil => simp [splitChar]
  | cons x xs ih =>
    have hx : x ≠ c := fun he => h (he ▸ List.mem_cons_self x xs)
    have hxs : c ∉ xs := fun hm => h (List.mem_cons_of_mem x hm)
    simp only [splitChar, if_neg hx, ih hxs]

/-- Splitting a list that starts with a separator-free part followed by a
separator peels off that part. -/
theorem splitChar_append_cons (c : Char) (a t : List Char) (h : c ∉ a) :
    splitChar c (a ++ c :: t) = a :: splitChar c t := by
  induction a with
  | nil => simp [splitChar]
  | cons x xs ih =>
    have hx : x ≠ c := fun he => h (he ▸ List.mem_cons_self x xs)
    have hxs : c ∉ xs := fun hm => h (List.mem_cons_of_mem x hm)
    show splitChar c (x :: (xs ++ c :: t)) = (x :: xs) :: splitChar c t
    simp only [splitChar, if_neg hx]
    rw [ih hxs]

/-- Round trip: joining separator-free parts and splitting again recovers the
parts. -/
theorem splitChar_joinChar (c : Char) (parts : List (List Char))
    (hne : parts ≠ []) (h : ∀ p ∈ parts, c ∉ p) :
    splitChar c (joinChar c parts) = parts := by
  induction parts with
  | nil => exact absurd rfl hne
  | cons p ps ih =>
    cases ps with
    | nil =>
      simp only [joinChar]
      exact splitChar_of_not_mem c p (h p (List.mem_cons_self p []))
    | cons q qs =>
      simp only [joinChar]
      rw [splitChar_append_cons c p _ (h p (List.mem_cons_self p _))]
      rw [ih (by simp) (fun r hr => h r (List.mem_cons_of_mem p hr))]

/-- The first part produced by `splitChar` is an initial segment. -/
theorem splitChar_head_init (c : Char) (s : List Char) (p : List Char)
    (ps : List (List Char)) (h : splitChar c s = p :: ps) :
    ∃ r, s = p ++ r := by
  have hj := joinChar_splitChar c s
  rw [h] at hj
  cases ps with
  | nil => exact ⟨[], by simpa [joinChar] using hj.symm⟩
  | cons q qs => exact ⟨c :: joinChar c (q :: qs), by simpa [joinChar] using hj.symm⟩

/-- Every part produced by `splitChar` occurs inside the original list. -/
theorem splitChar_part_embeds (c : Char) (s : List Char) :
    ∀ p ∈ splitChar c s, ∃ x y, s = x ++ p ++ y := by
  induction s with
  | nil =>
    intro p hp
    simp [splitChar] at hp
    exact ⟨[], [], by simp [hp]⟩
  | cons a xs ih =>
    intro p hp
    simp only [splitChar] at hp
    by_cases ha : a = c
    · rw [if_pos ha] at hp
      rcases List.mem_cons.mp hp with h | h
      · exact ⟨[], a :: xs, by simp [h]⟩
      · obtain ⟨x, y, hxy⟩ := ih p h
        exact ⟨a :: x, y, by simp [hxy]⟩
    · rw [if_neg ha] at hp
      rcases hq : splitChar c xs with _ | ⟨q, qs⟩
      · exact absurd hq (splitChar_ne_nil c xs)
      · rw [hq] at hp
        rcases List.mem_cons.mp hp with h | h
        · subst h
          obtain ⟨r, hr⟩ := splitChar_head_init c xs q qs hq
          exact ⟨[], r, by simp [hr]⟩
        · obtain ⟨x, y, hxy⟩ :=
            ih p (by rw [hq]; exact List.mem_cons_of_mem q h)
          exact ⟨a :: x, y, by simp [hxy]⟩

/-- `findSub` finds an occurrence exactly when one exists. -/
theorem findSub_isSome_iff (s pat : List Char) :
    (findSub s pat).isSome = true ↔ ∃ x y, s = x ++ pat ++ y := by
  induction s with
  | nil =>
    simp only [findSub]
    constructor
    · intro h
      split at h
      · next he => exact ⟨[], [], by simp [List.isEmpty_iff.mp he]⟩
      · simp at h
    · rintro ⟨x, y, hxy⟩
      have h0 : x ++ pat ++ y = [] := hxy.symm
      simp only [List.append_eq_nil] at h0
      rw [if_pos (List.isEmpty_iff.mpr h0.1.2)]
      rfl
  | cons a rest ih =>
    simp only [findSub]
    constructor
    · intro h
      by_cases hp : pat.isPrefixOf (a :: rest)
      · obtain ⟨t, ht⟩ := List.isPrefixOf_iff_prefix.mp hp
        exact ⟨[], t, by simp [ht.symm]⟩
      · rw [if_neg hp] at h
        have hsome : (findSub rest pat).isSome = true := by
          rcases hfs : findSub rest pat with _ | n
          · rw [hfs] at h; simp at h
          · rfl
        obtain ⟨x, y, hxy⟩ := ih.mp hsome
        exact ⟨a :: x, y, by simp [hxy]⟩
    · rintro ⟨x, y, hxy⟩
      cases x with
      | nil =>
        have hp : pat.isPrefixOf (a :: rest) := by
          apply List.isPrefixOf_iff_prefix.mpr
          exact ⟨y, by simpa using hxy.symm⟩
        simp [hp]
      | cons x0 x1 =>
        simp only [List.cons_append, List.cons.injEq] at hxy
        by_cases hp : pat.isPrefixOf (a :: rest)
        · simp [hp]
        · rw [if_neg hp]
          have hsome : (findSub rest pat).isSome = true :=
            ih.mpr ⟨x1, y, by simpa using hxy.2⟩
          rcases hfs : findSub rest pat with _ | n
          · rw [hfs] at hsome; simp at hsome
          · simp [hfs]

theorem listIncludes_iff (s pat : List Char) :
    listIncludes s pat = true ↔ ∃ x y, s = x ++ pat ++ y := by
  unfold listIncludes
  exact findSub_isSome_iff s pat

/-! ### SHA-256 on `Nat` (model of node `crypto.createHash('sha256')`) -/

/-- Standard UTF-8 encoding of a Unicode code point as a byte list. -/
def utf8BytesOfCode (c : Nat) : List Nat :=
  if c < 0x80 then [c]
  else if c < 0x800 then
    [0xC0 ||| (c >>> 6), 0x80 ||| (c &&& 0x3F)]
  else if c < 0x10000 then
    [0xE0 ||| (c >>> 12), 0x80 ||| ((c >>> 6) &&& 0x3F), 0x80 ||| (c &&& 0x3F)]
  else
    [0xF0 ||| (c >>> 18), 0x80 ||| ((c >>> 12) &&& 0x3F),
     0x80 ||| ((c >>> 6) &&& 0x3F), 0x80 ||| (c &&& 0x3F)]

/-- UTF-8 bytes of a string, as node's `hash.update(message)` consumes them. -/
def strBytes (s : String) : List Nat :=
  (s.data.map (fun ch => utf8BytesOfCode ch.toNat)).flatten

/-- 32-bit right rotation. -/
def rotr32 (n x : Nat) : Nat :=
  ((x >>> n) ||| (x <<< (32 - n))) % 4294967296

/-- SHA-256 round constants. -/
def sha256K : List Nat :=
  [1116352408, 1899447441, 3049323471, 3921009573, 961987163, 1508970993,
   2453635748, 2870763221, 3624381080, 310598401, 607225278, 1426881987,
   1925078388, 2162078206, 2614888103, 3248222580, 3835390401, 4022224774,
   264347078, 604807628, 770255983, 1249150122, 1555081692, 1996064986,
   2554220882, 2821834349, 2952996808, 3210313671, 3336571891, 3584528711,
   113926993, 338241895, 666307205, 773529912, 1294757372, 1396182291,
   1695183700, 1986661051, 2177026350, 2456956037, 2730485921, 2820302411,
   3259730800, 3345764771, 3516065817, 3600352804, 4094571909, 275423344,
   430227734, 506948616, 659060556, 883997877, 958139571, 1322822218,
   1537002063, 1747873779, 1955562222, 2024104815, 2227730452, 2361852424,
   2428436474, 2756734187, 3204031479, 3329325298]

/-- SHA-256 message padding: append `0x80`, zero bytes, and the 64-bit
big-endian bit length, to a multiple of 64 bytes. -/
def sha256Pad (msg : List Nat) : List Nat :=
  let len := msg.length
  let zeros := (64 - ((len + 9) % 64)) % 64
  let bitLen := len * 8
  msg ++ [0x80] ++ List.replicate zeros 0 ++
    [(bitLen >>> 56) &&& 255, (bitLen >>> 48) &&& 255, (bitLen >>> 40) &&& 255,
     (bitLen >>> 32) &&& 255, (bitLen >>> 24) &&& 255, (bitLen >>> 16) &&& 255,
     (bitLen >>> 8) &&& 255, bitLen &&& 255]

/-- Group a byte list into 64-byte blocks (fuel-structured so that the
definition reduces inside the kernel; the fuel `l.length` always suffices). -/
def sha256ChunksAux : Nat → List Nat → List (List Nat)
  | 0, _ => []
  | _ + 1, [] => []
  | fuel + 1, x :: xs => (x :: xs).take 64 :: sha256ChunksAux fuel ((x :: xs).drop 64)

/-- Group a byte list into 64-byte blocks. -/
def sha256Chunks (l : List Nat) : List (List Nat) :=
  sha256ChunksAux l.length l

/-- Big-endian 32-bit words of a block. -/
def beWords : List Nat → List Nat
  | b0 :: b1 :: b2 :: b3 :: rest => (((b0 * 256 + b1) * 256 + b2) * 256 + b3) :: beWords rest
  | _ => []

/-- One extension step of the SHA-256 message schedule. -/
def sha256ExtendStep (w : List Nat) : List Nat :=
  let n := w.length
  let w15 := w.getD (n - 15) 0
  let w2 := w.getD (n - 2) 0
  let s0 := (rotr32 7 w15) ^^^ (rotr32 18 w15) ^^^ (w15 >>> 3)
  let s1 := (rotr32 17 w2) ^^^ (rotr32 19 w2) ^^^ (w2 >>> 10)
  w ++ [(w.getD (n - 16) 0 + s0 + w.getD (n - 7) 0 + s1) % 4294967296]

/-- Extend the 16 block words to the 64-entry message schedule. -/
def sha256Schedule (w16 : List Nat) : List Nat :=
  (List.range 48).foldl (fun acc _ => sha256ExtendStep acc) w16

/-- SHA-256 working state. -/
structure Sha256State where
  sa : Nat
  sb : Nat
  sc : Nat
  sd : Nat
  se : Nat
  sf : Nat
  sg : Nat
  sh : Nat
deriving DecidableEq

/-- One compression round. -/
def sha256Round (st : Sha256State) (kw : Nat × Nat) : Sha256State :=
  let S1 := (rotr32 6 st.se) ^^^ (rotr32 11 st.se) ^^^ (rotr32 25 st.se)
  let ch := (st.se &&& st.sf) ^^^ ((st.se ^^^ 0xFFFFFFFF) &&& st.sg)
  let temp1 := (st.sh + S1 + ch + kw.1 + kw.2) % 4294967296
  let S0 := (rotr32 2 st.sa) ^^^ (rotr32 13 st.sa) ^^^ (rotr32 22 st.sa)
  let maj := (st.sa &&& st.sb) ^^^ (st.sa &&& st.sc) ^^^ (st.sb &&& st.sc)
  let temp2 := (S0 + maj) % 4294967296
  { sa := (temp1 + temp2) % 4294967296
    sb := st.sa
    sc := st.sb
    sd := st.sc
    se := (st.sd + temp1) % 4294967296
    sf := st.se
    sg := st.sf
    sh := st.sg }

/-- Process one 64-byte block. -/
def sha256Block (st : Sha256State) (block : List Nat) : Sha256State :=
  let ws := sha256Schedule (beWords block)
  let r := (sha256K.zip ws).foldl sha256Round st
  { sa := (st.sa + r.sa) % 4294967296
    sb := (st.sb + r.sb) % 4294967296
    sc := (st.sc + r.sc) % 4294967296
    sd := (st.sd + r.sd) % 4294967296
    se := (st.se + r.se) % 4294967296
    sf := (st.sf + r.sf) % 4294967296
    sg := (st.sg + r.sg) % 4294967296
    sh := (st.sh + r.sh) % 4294967296 }

/-- SHA-256 initial state. -/
def sha256Init : Sha256State :=
  ⟨1779033703, 3144134277, 1013904242, 2773480762,
   1359893119, 2600822924, 528734635, 1541459225⟩

/-- Lowercase hexadecimal digits. -/
def hexCharList : List Char :=
  ("0123456789abcdef" : String).data

def isHexChar (c : Char) : Bool :=
  hexCharList.contains c

/-- Eight lowercase hex characters of one 32-bit word, most significant
nibble first. -/
def wordHex (w : Nat) : List Char :=
  [hexCharList.getD ((w >>> 28) &&& 15) '0', hexCharList.getD ((w >>> 24) &&& 15) '0',
   hexCharList.getD ((w >>> 20) &&& 15) '0', hexCharList.getD ((w >>> 16) &&& 15) '0',
   hexCharList.getD ((w >>> 12) &&& 15) '0', hexCharList.getD ((w >>> 8) &&& 15) '0',
   hexCharList.getD ((w >>> 4) &&& 15) '0', hexCharList.getD (w &&& 15) '0']

/-- Full lowercase hex digest of a byte message. -/
def sha256Hex (msg : List Nat) : List Char :=
  let fin := (sha256Chunks (sha256Pad msg)).foldl sha256Block sha256Init
  wordHex fin.sa ++ wordHex fin.sb ++ wordHex fin.sc ++ wordHex fin.sd ++
    wordHex fin.se ++ wordHex fin.sf ++ wordHex fin.sg ++ wordHex fin.sh

/-- `ChangelogManager.createMessageHash` (ReleaseManager.js line 532):
`crypto.createHash('sha256').update(message).digest('hex').substring(0, 8)`. -/
def createMessageHash (message : String) : String :=
  String.mk ((sha256Hex (strBytes message)).take 8)

/-! ### Semantic versions (model of the `semver` package operations used) -/

/-- A parsed `major.minor.patch` version. -/
structure Version where
  vmajor : Nat
  vminor : Nat
  vpatch : Nat
deriving DecidableEq

/-- Decimal digits of a natural number (fuel-structured so it reduces in the
kernel; fuel `n + 1` always suffices since `n / 10 < n` for `n ≥ 10`). -/
def natToCharsAux : Nat → Nat → List Char
  | 0, _ => []
  | fuel + 1, n =>
    if n < 10 then [Char.ofNat (48 + n)]
    else natToCharsAux fuel (n / 10) ++ [Char.ofNat (48 + n % 10)]

/-- JavaScript number-to-string for the nonnegative integers appearing in
versions. -/
def natToChars (n : Nat) : List Char :=
  natToCharsAux (n + 1) n

/-- `major.minor.patch` rendering, as `semver` formats versions. -/
def showVersion (v : Version) : String :=
  String.mk (natToChars v.vmajor ++ '.' :: natToChars v.vminor ++ '.' :: natToChars v.vpatch)

/-- Numeric semantic-version precedence (major, then minor, then patch). -/
def vLe (a b : Version) : Prop :=
  a.vmajor < b.vmajor ∨
    (a.vmajor = b.vmajor ∧
      (a.vminor < b.vminor ∨ (a.vminor = b.vminor ∧ a.vpatch ≤ b.vpatch)))

instance : DecidableRel vLe := fun a b => by unfold vLe; infer_instance

/-- Descending comparison used for the `semver.rcompare` sort. -/
def vGeFst (a b : Version × List Char) : Prop := vLe b.1 a.1

instance : DecidableRel vGeFst := fun a b => by unfold vGeFst; infer_instance

instance : IsTotal (Version × List Char) vGeFst :=
  ⟨by intro a b; unfold vGeFst vLe; omega⟩

instance : IsTrans (Version × List Char) vGeFst :=
  ⟨by intro a b c; unfold vGeFst vLe; omega⟩

/-- A numeric component of a strict semver string: nonempty, all digits, no
leading zero (as `semver.parse` requires). -/
def semverNumOk (l : List Char) : Bool :=
  !l.isEmpty && l.all Char.isDigit && (l.length == 1 || l.headD '0' != '0')

/-- Whether a file name matches the source regex `^\d+\.\d+\.\d+\.md$`
(ReleaseManager.js line 388). -/
def matchesVersionPattern (name : List Char) : Bool :=
  match splitChar '.' name with
  | [a, b, c, sfx] =>
    !a.isEmpty && a.all Char.isDigit && !b.isEmpty && b.all Char.isDigit &&
      !c.isEmpty && c.all Char.isDigit && sfx = "md".data
  | _ => false

/-- Numeric value of a digit string. -/
def charsToNat (l : List Char) : Nat :=
  l.foldl (fun acc c => acc * 10 + (c.toNat - 48)) 0

/-- `semver.parse` applied to the file name with the trailing `.md`
stripped: `some` exactly for strict `major.minor.patch` stems. -/
def stemParse (name : List Char) : Option Version :=
  match splitChar '.' name with
  | [a, b, c, _] =>
    if semverNumOk a && semverNumOk b && semverNumOk c then
      some ⟨charsToNat a, charsToNat b, charsToNat c⟩
    else none
  | _ => none

/-- The version bump categories accepted by the CLI. -/
inductive BumpType where
  | major
  | minor
  | patch
deriving DecidableEq

/-- Standard semantic-version increment (`semver.inc`). -/
def incVersion (v : Version) : BumpType → Version
  | .major => ⟨v.vmajor + 1, 0, 0⟩
  | .minor => ⟨v.vmajor, v.vminor + 1, 0⟩
  | .patch => ⟨v.vmajor, v.vminor, v.vpatch + 1⟩



/-! ### The changelog directory (model of the fs operations used) -/

/-- The changelog directory: file names mapped to file contents.  `readFile`
returns `none` for a missing file, modelling a rejected promise. -/
structure FS where
  files : List (String × String)
deriving DecidableEq

def readFile (fs : FS) (name : String) : Option String :=
  (fs.files.find? (fun p => p.1 == name)).map (fun p => p.2)

/-- `fs.access` success. -/
def fileExists (fs : FS) (name : String) : Bool :=
  (readFile fs name).isSome

/-- Whole-file overwrite (`fs.writeFile`). -/
def writeFile (fs : FS) (name content : String) : FS :=
  if (fs.files.find? (fun p => p.1 == name)).isSome then
    ⟨fs.files.map (fun p => if p.1 == name then (name, content) else p)⟩
  else
    ⟨fs.files ++ [(name, content)]⟩

/-- `fs.unlink`. -/
def deleteFile (fs : FS) (name : String) : FS :=
  ⟨fs.files.filter (fun p => p.1 != name)⟩

/-- `fs.readdir` of the changelog directory. -/
def dirListing (fs : FS) : List (List Char) :=
  fs.files.map (fun p => p.1.data)

theorem find?_cons_eq {α : Type} (p : α → Bool) (a : α) (l : List α) :
    (a :: l).find? p = if p a then some a else l.find? p := by
  by_cases h : p a
  · rw [List.find?_cons_of_pos l h, if_pos h]
  · rw [List.find?_cons_of_neg l (by simpa using h), if_neg (by simpa using h)]

theorem find_replace_self (l : List (String × String)) (name content : String) :
    (l.map (fun p => if p.1 == name then (name, content) else p)).find?
        (fun p => p.1 == name) =
      if ((l.find? (fun p => p.1 == name)).isSome : Bool) then some (name, content)
      else none := by
  induction l with
  | nil => simp
  | cons p ps ih =>
    rw [List.map_cons, find?_cons_eq, find?_cons_eq]
    by_cases hp : (p.1 == name) = true
    · rw [if_pos hp]
      simp [hp]
    · simp only [if_neg hp]
      exact ih

theorem find_replace_other (l : List (String × String)) (name content other : String)
    (h : other ≠ name) :
    (l.map (fun p => if p.1 == name then (name, content) else p)).find?
        (fun p => p.1 == other) =
      l.find? (fun p => p.1 == other) := by
  induction l with
  | nil => simp
  | cons p ps ih =>
    rw [List.map_cons, find?_cons_eq, find?_cons_eq]
    by_cases hp : (p.1 == name) = true
    · have hpo : ¬ ((p.1 == other) = true) := by
        simp only [beq_iff_eq] at hp ⊢
        rw [hp]
        exact fun he => h he.symm
      rw [if_pos hp]
      have hno : ¬ (((name, content).1 == other) = true) := by
        simp only [beq_iff_eq]
        exact fun he => h he.symm
      rw [if_neg hno, if_neg hpo, ih]
    · rw [if_neg hp]
      by_cases hpo : (p.1 == other) = true
      · rw [if_pos hpo, if_pos hpo]
      · rw [if_neg hpo, if_neg hpo, ih]

theorem find_append_single (l : List (String × String)) (q : String × String)
    (pred : String × String → Bool) :
    (l ++ [q]).find? pred =
      match l.find? pred with
      | some r => some r
      | none => if pred q then some q else none := by
  induction l with
  | nil => simp [find?_cons_eq]
  | cons p ps ih =>
    rw [List.cons_append, find?_cons_eq, find?_cons_eq]
    by_cases hp : pred p = true
    · rw [if_pos hp, if_pos hp]
    · rw [if_neg hp, if_neg hp, ih]

theorem find_filter_ne_self (l : List (String × String)) (name : String) :
    (l.filter (fun p => p.1 != name)).find? (fun p => p.1 == name) = none := by
  induction l with
  | nil => simp
  | cons p ps ih =>
    by_cases hp : (p.1 == name) = true
    · have hf : ¬ ((p.1 != name) = true) := by simpa using hp
      rw [List.filter_cons, if_neg hf]
      exact ih
    · have hf : (p.1 != name) = true := by simpa using hp
      rw [List.filter_cons, if_pos hf, find?_cons_eq, if_neg hp]
      exact ih

theorem find_filter_ne_other (l : List (String × String)) (name other : String)
    (h : other ≠ name) :
    (l.filter (fun p => p.1 != name)).find? (fun p => p.1 == other) =
      l.find? (fun p => p.1 == other) := by
  induction l with
  | nil => simp
  | cons p ps ih =>
    by_cases hp : (p.1 == name) = true
    · have hf : ¬ ((p.1 != name) = true) := by simpa using hp
      have hpo : ¬ ((p.1 == other) = true) := by
        simp only [beq_iff_eq] at hp ⊢
        rw [hp]
        exact fun he => h he.symm
      rw [List.filter_cons, if_neg hf, find?_cons_eq, if_neg hpo, ih]
    · have hf : (p.1 != name) = true := by simpa using hp
      rw [List.filter_cons, if_pos hf, find?_cons_eq, find?_cons_eq]
      by_cases hpo : (p.1 == other) = true
      · rw [if_pos hpo, if_pos hpo]
      · rw [if_neg hpo, if_neg hpo, ih]

theorem readFile_writeFile_self (fs : FS) (name content : String) :
    readFile (writeFile fs name content) name = some content := by
  unfold readFile writeFile
  split
  · next hsome =>
    rw [find_replace_self]
    simp [hsome]
  · next hnone =>
    rw [find_append_single]
    rcases hf : fs.files.find? (fun p => p.1 == name) with _ | r
    · simp [hf]
    · exact absurd (by simp [hf]) hnone

theorem readFile_writeFile_other (fs : FS) (name content other : String)
    (h : other ≠ name) :
    readFile (writeFile fs name content) other = readFile fs other := by
  unfold readFile writeFile
  split
  · rw [find_replace_other fs.files name content other h]
  · rw [find_append_single]
    rcases hf : fs.files.find? (fun p => p.1 == other) with _ | r
    · have hno : ¬ (((name, content).1 == other) = true) := by
        simp only [beq_iff_eq]
        exact fun he => h he.symm
      simp only [hf]
      rw [if_neg hno]
    · simp [hf]

theorem readFile_deleteFile_self (fs : FS) (name : String) :
    readFile (deleteFile fs name) name = none := by
  unfold readFile deleteFile
  rw [find_filter_ne_self]
  rfl

theorem readFile_deleteFile_other (fs : FS) (name other : String) (h : other ≠ name) :
    readFile (deleteFile fs name) other = readFile fs other := by
  unfold readFile deleteFile
  rw [find_filter_ne_other fs.files name other h]

/-! ### Frontmatter codec (`ChangelogManager.parseFrontmatter`) -/

/-- JavaScript whitespace as far as these documents use it (`String.trim`). -/
def isJsSpace (c : Char) : Bool :=
  c = ' ' || c = '\t' || c = '\n' || c = '\r'

/-- JavaScript `s.trim()`. -/
def trimChars (l : List Char) : List Char :=
  ((l.dropWhile isJsSpace).reverse.dropWhile isJsSpace).reverse

/-- The frontmatter key/value collection loop: lines until a closing `---`,
split on `:`; lines with an empty key or no `:` are skipped; later keys
overwrite earlier ones via `fmGet`. -/
def fmCollect : List (List Char) → List (List Char × List Char)
  | [] => []
  | l :: ls =>
    if l = "---".data then []
    else
      match splitChar ':' l with
      | key :: v1 :: vrest =>
        if key ≠ [] then
          (trimChars key, trimChars (joinChar ':' (v1 :: vrest))) :: fmCollect ls
        else fmCollect ls
      | _ => fmCollect ls

/-- `ChangelogManager.parseFrontmatter` (ReleaseManager.js line 449). -/
def parseFrontmatter (content : String) : List (List Char × List Char) :=
  match splitChar '\n' content.data with
  | l0 :: rest => if l0 = "---".data then fmCollect rest else []
  | [] => []

/-- JavaScript object-property lookup: the last assignment wins. -/
def fmGet (fm : List (List Char × List Char)) (k : List Char) : Option (List Char) :=
  fm.foldl (fun acc p => if p.1 = k then some p.2 else acc) none

/-- JavaScript falsiness of `frontmatter.tag`: absent key or empty value. -/
def fmTagFalsy (content : String) : Bool :=
  match fmGet (parseFrontmatter content) "tag".data with
  | none => true
  | some v => v.isEmpty

/-! ### Version-ordered document set (`getHighestVersion`, `getNextVersion`) -/

/-- `ChangelogManager.getHighestVersion` (ReleaseManager.js line 385): list
the directory, keep `^\d+\.\d+\.\d+\.md$` names, parse each stem with
`semver.parse` dropping failures, sort descending with `semver.rcompare`,
and take the first entry (version together with its file name).  An empty
regex match set returns `none` (the source returns `null`); a non-empty
match set whose parses all fail also yields `none` (the source reads
`versions[0]` of an empty array, `undefined`). -/
def getHighestVersion (fs : FS) : Option (Version × List Char) :=
  let versionFiles := (dirListing fs).filter matchesVersionPattern
  if versionFiles.isEmpty then none
  else
    (List.insertionSort vGeFst
      (versionFiles.filterMap (fun nm => (stemParse nm).map (fun v => (v, nm))))).head?

/-- `ChangelogManager.getNextVersion` (ReleaseManager.js line 696). -/
def getNextVersion (fs : FS) (bumpType : BumpType) : String :=
  match getHighestVersion fs with
  | none => "0.1.0"
  | some vf => showVersion (incVersion vf.1 bumpType)

/-! ### Open-document resolution (`detectOpenReleaseFile`) -/

/-- `ChangelogManager.detectOpenReleaseFile` (ReleaseManager.js line 412):
the draft if it exists; else the highest version file when its frontmatter
`tag` is falsy; else the (possibly not yet existing) draft path. -/
def detectOpenReleaseFile (draftName : String) (fs : FS) : String :=
  if fileExists fs draftName then draftName
  else
    match getHighestVersion fs with
    | some vf =>
      let versionFile := String.mk vf.2
      match readFile fs versionFile with
      | some content => if fmTagFalsy content then versionFile else draftName
      | none => draftName
    | none => draftName

/-! ### Hash bookkeeping (`isMessageAlreadyInChangelog`) -/

/-- The embedded dedup marker for a hash. -/
def hashMarker (messageHash : String) : String :=
  "<!-- hash:" ++ messageHash ++ " -->"

/-- `ChangelogManager.isMessageAlreadyInChangelog` (ReleaseManager.js line
539): full-text substring search for the marker; a read failure yields
`false`. -/
def isMessageAlreadyInChangelog (fs : FS) (releaseFile : String)
    (messageHash : String) : Bool :=
  match readFile fs releaseFile with
  | some content => listIncludes content.data (hashMarker messageHash).data
  | none => false

/-! ### Document templates -/

/-- The document template written by `createUnreleasedFile` (ReleaseManager.js
line 717) and by `ReleaseManager.startNewDraft` (line 270); the two source
template literals are character-for-character identical. -/
def draftTemplate (version today : String) : String :=
  "---\nversion: " ++ version ++ "\ndate: " ++ today ++
    "\ntag: \n---\n\n# Release " ++ version ++
    "\n\n## **Unreleased**\n\n<!-- New entries will be added here -->\n\n"

/-! ### Entry merging (`updateChangelogFile`) -/

/-- One incoming entry: the raw message (hash source) and the rendered
bullet text. -/
structure Entry where
  message : String
  polished : String
deriving DecidableEq

/-- The rendered line `${entry.polished} <!-- hash:${hash} -->`
(ReleaseManager.js line 782). -/
def entryLine (e : Entry) : String :=
  e.polished ++ " <!-- hash:" ++ createMessageHash e.message ++ " -->"

def unreleasedNeedle : List Char := "**Unreleased**".data

def releaseHeaderStart : List Char := "# Release".data

def unreleasedHeaderLine : List Char := "## **Unreleased**".data

/-- The line-level merge of `updateChangelogFile` (ReleaseManager.js lines
752-785): locate the first line containing `**Unreleased**` and splice the
new lines right after it; if absent, create the header after the first
`# Release` line (or at the end of the document) first. -/
def mergeLines (lines : List (List Char)) (newLines : List (List Char)) :
    List (List Char) :=
  match lines.findIdx? (fun l => listIncludes l unreleasedNeedle) with
  | some i => lines.take (i + 1) ++ newLines ++ lines.drop (i + 1)
  | none =>
    match lines.findIdx? (fun l => releaseHeaderStart.isPrefixOf l) with
    | some j =>
      let lines2 := lines.take (j + 1) ++ [[], unreleasedHeaderLine, []] ++ lines.drop (j + 1)
      lines2.take (j + 3) ++ newLines ++ lines2.drop (j + 3)
    | none => (lines ++ [[], unreleasedHeaderLine, []]) ++ newLines

/-- The pure content transformation of `updateChangelogFile`: split on
newlines, merge, join with newlines. -/
def mergeEntries (content : String) (newEntries : List Entry) : String :=
  String.mk (joinChar '\n'
    (mergeLines (splitChar '\n' content.data)
      (newEntries.map (fun e => (entryLine e).data))))

/-- `ChangelogManager.updateChangelogFile` (ReleaseManager.js line 739) as a
directory transformation: a missing target is first materialised with the
`createUnreleasedFile` template (whose version is `getNextVersion('patch')`)
and then merged into like an existing one. -/
def updateChangelogFileFS (today : String) (fs : FS) (filePath : String)
    (newEntries : List Entry) : FS :=
  match readFile fs filePath with
  | some content => writeFile fs filePath (mergeEntries content newEntries)
  | none =>
    let fs1 := writeFile fs filePath (draftTemplate (getNextVersion fs .patch) today)
    match readFile fs1 filePath with
    | some content => writeFile fs1 filePath (mergeEntries content newEntries)
    | none => fs1

/-! ### Message polishing (`polishCommitMessages`) -/

/-- The raw-message fallback `messages.map(msg => '- ' + msg)`. -/
def polishFallback (messages : List String) : List String :=
  messages.map (fun msg => "- " ++ msg)

/-- JavaScript falsiness of `config.aiApiKey`. -/
def keyFalsy : Option String → Bool
  | none => true
  | some k => k.isEmpty

/-- `ChangelogManager.polishCommitMessages` (ReleaseManager.js line 551).
The network call is an external capability; `callResult` is `none` when the
provider call throws (network failure, missing fields in the response body)
and `some response` when it returns text.  Prompt construction and provider
dispatch do not affect the returned value and are omitted. -/
def polishCommitMessages (aiApiKey : Option String) (callResult : Option String)
    (messages : List String) : List String :=
  if keyFalsy aiApiKey || messages.isEmpty then polishFallback messages
  else
    match callResult with
    | none => polishFallback messages
    | some response =>
      ((splitChar '\n' response.data).map String.mk).filter
        (fun line => "- ".data.isPrefixOf (trimChars line.data))

/-! ### The add workflow (`addToChangelog`) -/

/-- JavaScript `polished[index] || fallback` (empty strings are falsy). -/
def jsOrElse (o : Option String) (fallback : String) : String :=
  match o with
  | some s => if s.isEmpty then fallback else s
  | none => fallback

/-- Pairing each deduplicated commit with its polished line
(ReleaseManager.js line 848). -/
def buildEntries (filtered polished : List String) : List Entry :=
  filtered.enum.map (fun p => ⟨p.2, jsOrElse (polished.get? p.1) ("- " ++ p.2)⟩)

/-- One invocation of the add workflow: either a custom message or a batch
of commit subjects fetched from the commit source. -/
inductive AddOp where
  | custom (msg : String)
  | commits (msgs : List String)

/-- `ChangelogManager.addToChangelog` (ReleaseManager.js line 799).  The
`polish` parameter is the `polishCommitMessages` capability (its behaviour
under no key / failure is pinned separately); `today` is the date string a
created template would carry. -/
def addToChangelog (polish : List String → List String) (today draftName : String)
    (fs : FS) (op : AddOp) : FS :=
  let releaseFile := detectOpenReleaseFile draftName fs
  match op with
  | .custom msg =>
    let messageHash := createMessageHash msg
    if isMessageAlreadyInChangelog fs releaseFile messageHash then fs
    else
      let polished := polish [msg]
      updateChangelogFileFS today fs releaseFile
        [⟨msg, jsOrElse (polished.get? 0) ("- " ++ msg)⟩]
  | .commits msgs =>
    let filtered := msgs.filter
      (fun m => !(isMessageAlreadyInChangelog fs releaseFile (createMessageHash m)))
    if filtered.isEmpty then fs
    else updateChangelogFileFS today fs releaseFile (buildEntries filtered (polish filtered))

/-- A sequence of add operations against one directory. -/
def applyOps (polish : List String → List String) (today draftName : String)
    (fs : FS) (ops : List AddOp) : FS :=
  ops.foldl (addToChangelog polish today draftName) fs

/-! ### The release workflow (`ReleaseManager`) -/

/-- Release-manager state: the changelog directory plus the manifest
(package.json) version, `none` when the manifest is missing or carries no
version. -/
structure RMState where
  fs : FS
  manifestVersion : Option String
deriving DecidableEq

/-- `ReleaseManager.getCurrentVersion` (ReleaseManager.js line 32):
`packageJson.version || '0.0.0'`, with `'0.0.0'` on a read failure. -/
def getCurrentVersion (st : RMState) : String :=
  match st.manifestVersion with
  | some v => if v.isEmpty then "0.0.0" else v
  | none => "0.0.0"

/-- `semver.parse` on a strict `major.minor.patch` string (the only form the
manifest versions exercised here take; loose forms are not modelled). -/
def parseVersionString (s : String) : Option Version :=
  match splitChar '.' s.data with
  | [a, b, c] =>
    if semverNumOk a && semverNumOk b && semverNumOk c then
      some ⟨charsToNat a, charsToNat b, charsToNat c⟩
    else none
  | _ => none

/-- `ReleaseManager.bumpVersion` = `semver.inc(version, type)`; `none`
models the `null` returned for an unparseable version. -/
def bumpVersion (version : String) (bumpType : BumpType) : Option String :=
  (parseVersionString version).map (fun v => showVersion (incVersion v bumpType))

/-- The frontmatter line rewriting inside `renameDraftFile`
(ReleaseManager.js lines 122-135). -/
def processFrontmatterLines (newVersion today : String) (fmChars : List Char) :
    List Char :=
  joinChar '\n' ((splitChar '\n' fmChars).map (fun line =>
    if "version:".data.isPrefixOf line then ("version: " ++ newVersion).data
    else if "date:".data.isPrefixOf line then ("date: " ++ today).data
    else if "tag:".data.isPrefixOf line ∧ trimChars line = "tag:".data then
      ("tag: v" ++ newVersion).data
    else line))

def unreleasedStripPattern : List Char := "## **Unreleased**\n\n".data

/-- The content transformation of `ReleaseManager.renameDraftFile`
(ReleaseManager.js lines 121-139): rewrite the frontmatter block matched by
the anchored lazy regex `^---\n([\s\S]*?)---\n` (the replacement template
re-adds a newline after the joined lines), then delete the first occurrence
of `## **Unreleased**\n\n`. -/
def transformDraftContent (newVersion today : String) (content : String) : String :=
  let s := content.data
  let s1 :=
    if "---\n".data.isPrefixOf s then
      let rest := s.drop 4
      match findSub rest "---\n".data with
      | some k =>
        "---\n".data ++ processFrontmatterLines newVersion today (rest.take k) ++
          "\n---\n".data ++ rest.drop (k + 4)
      | none => s
    else s
  match findSub s1 unreleasedStripPattern with
  | some k => String.mk (s1.take k ++ s1.drop (k + unreleasedStripPattern.length))
  | none => String.mk s1

/-- The fallback release file written when the draft cannot be read
(ReleaseManager.js lines 148-157). -/
def basicReleaseContent (newVersion today : String) : String :=
  "---\nversion: " ++ newVersion ++ "\ndate: " ++ today ++ "\ntag: v" ++ newVersion ++
    "\n---\n\n# Release " ++ newVersion ++ "\n\n- Release " ++ newVersion ++ "\n"

/-- `ReleaseManager.renameDraftFile` (ReleaseManager.js line 113). -/
def renameDraftFile (draftName today : String) (fs : FS) (newVersion : String) : FS :=
  let newFilePath := newVersion ++ ".md"
  match readFile fs draftName with
  | some content =>
    deleteFile (writeFile fs newFilePath (transformDraftContent newVersion today content))
      draftName
  | none => writeFile fs newFilePath (basicReleaseContent newVersion today)

/-- `ReleaseManager.startNewDraft` (ReleaseManager.js line 264): a fresh
draft whose displayed version is `getNextVersion('patch')` over the
directory as it stands after the release cut. -/
def startNewDraft (draftName today : String) (fs : FS) : FS :=
  writeFile fs draftName (draftTemplate (getNextVersion fs .patch) today)

/-- `ReleaseManager.release` (ReleaseManager.js line 291).  Git tagging,
push and the remote release are external fire-and-report collaborators
without effect on the directory; `(bumpVersion ...).getD "null"` mirrors how
a `null` from `semver.inc` would be interpolated into the file name
template. -/
def release (draftName today : String) (st : RMState) (bumpType : BumpType) : RMState :=
  let currentVersion := getCurrentVersion st
  let newVersion := (bumpVersion currentVersion bumpType).getD "null"
  let fs2 := renameDraftFile draftName today st.fs newVersion
  let fs3 := startNewDraft draftName today fs2
  { fs := fs3, manifestVersion := some newVersion }

/-! ### Release CLI configuration (`src/bin/changelog-release.js`) -/

/-- Parsed command-line options (commander defaults already applied). -/
structure ReleaseCliOpts where
  dir : String
  file : String
  root : String
  pkg : String
  githubTokenOpt : Option String
  githubRepoOpt : Option String

/-- The environment variables the CLI falls back to. -/
structure EnvConfig where
  githubTokenEnv : Option String
  githubRepoEnv : Option String

/-- The JSON file loaded via `--config`; `some` means the key is present in
the file. -/
structure FileConfig where
  changelogDir : Option String
  draftFileName : Option String
  projectRoot : Option String
  packageJsonPath : Option String
  githubToken : Option String
  githubRepository : Option String

/-- The config object handed to the managers. -/
structure ReleaseConfig where
  changelogDir : String
  draftFileName : String
  projectRoot : String
  packageJsonPath : String
  githubToken : Option String
  githubRepository : Option String
deriving DecidableEq

/-- JavaScript `options.x || process.env.Y` (an empty flag string is falsy). -/
def jsOrEnv (flag env : Option String) : Option String :=
  match flag with
  | some s => if s.isEmpty then env else some s
  | none => env

/-- The config object construction of changelog-release.js lines 63-72: a
literal with the CLI-derived values, then `...fileConfig` spread last, so
every key present in the file overrides the corresponding literal entry. -/
def buildReleaseConfig (opts : ReleaseCliOpts) (env : EnvConfig)
    (fileConfig : FileConfig) : ReleaseConfig :=
  { changelogDir := fileConfig.changelogDir.getD opts.dir
    draftFileName := fileConfig.draftFileName.getD opts.file
    projectRoot := fileConfig.projectRoot.getD opts.root
    packageJsonPath := fileConfig.packageJsonPath.getD opts.pkg
    githubToken :=
      match fileConfig.githubToken with
      | some v => some v
      | none => jsOrEnv opts.githubTokenOpt env.githubTokenEnv
    githubRepository :=
      match fileConfig.githubRepository with
      | some v => some v
      | none => jsOrEnv opts.githubRepoOpt env.githubRepoEnv }

/-! ### Claim C10 -/

/-- C10: in the release CLI, every key present in the `--config` file
overrides the corresponding command-line option value (the file config is
spread last), including the GitHub token/repository flags and their
environment fallbacks; keys absent from the file leave the CLI value. -/
theorem releaseCli_fileConfig_overrides (opts : ReleaseCliOpts) (env : EnvConfig)
    (fc : FileConfig) :
    (∀ v, fc.changelogDir = some v → (buildReleaseConfig opts env fc).changelogDir = v) ∧
    (∀ v, fc.draftFileName = some v → (buildReleaseConfig opts env fc).draftFileName = v) ∧
    (∀ v, fc.projectRoot = some v → (buildReleaseConfig opts env fc).projectRoot = v) ∧
    (∀ v, fc.packageJsonPath = some v → (buildReleaseConfig opts env fc).packageJsonPath = v) ∧
    (∀ v, fc.githubToken = some v → (buildReleaseConfig opts env fc).githubToken = some v) ∧
    (∀ v, fc.githubRepository = some v →
      (buildReleaseConfig opts env fc).githubRepository = some v) ∧
    (fc.changelogDir = none → (buildReleaseConfig opts env fc).changelogDir = opts.dir) := by
  refine ⟨?_, ?_, ?_, ?_, ?_, ?_, ?_⟩
  all_goals first
    | (intro v h; simp [buildReleaseConfig, h])
    | (intro h; simp [buildReleaseConfig, h])

/-- C10 witness: a concrete config file setting `changelogDir` and
`githubToken` beats both the `--dir`/`--github-token` flags and the
environment fallback. -/
theorem releaseCli_fileConfig_overrides_witness :
    (buildReleaseConfig
      ⟨"changelog/releases", "draft.md", "/repo", "package.json", some "flagTok", none⟩
      ⟨some "envTok", some "envRepo"⟩
      ⟨some "docs/changes", none, none, none, some "fileTok", none⟩).changelogDir =
        "docs/changes" ∧
    (buildReleaseConfig
      ⟨"changelog/releases", "draft.md", "/repo", "package.json", some "flagTok", none⟩
      ⟨some "envTok", some "envRepo"⟩
      ⟨some "docs/changes", none, none, none, some "fileTok", none⟩).githubToken =
        some "fileTok" := by
  refine ⟨?_, ?_⟩
  · exact (releaseCli_fileConfig_overrides _ _ _).1 "docs/changes" rfl
  · exact (releaseCli_fileConfig_overrides _ _ _).2.2.2.2.1 "fileTok" rfl

/-! ### Claim C7 -/

/-- C7: with no AI key configured (or an empty one), or when the provider
call fails, `polishCommitMessages` returns exactly the line `- <rawMessage>`
per input message, in input order. -/
theorem polishCommitMessages_fallback (aiApiKey callResult : Option String)
    (messages : List String) (hne : messages ≠ [])
    (hfail : keyFalsy aiApiKey = true ∨ callResult = none) :
    polishCommitMessages aiApiKey callResult messages =
      messages.map (fun msg => "- " ++ msg) := by
  unfold polishCommitMessages polishFallback
  rcases hfail with hk | hc
  · rw [if_pos (by simp [hk])]
  · by_cases hk : keyFalsy aiApiKey = true
    · rw [if_pos (by simp [hk])]
    · rw [if_neg (by simp [hk, List.isEmpty_iff, hne]), hc]

/-- C7 witness: two messages, no key configured. -/
theorem polishCommitMessages_fallback_witness :
    polishCommitMessages none none ["fix parser", "update docs"] =
      ["- fix parser", "- update docs"] := by
  have h := polishCommitMessages_fallback none none ["fix parser", "update docs"]
    (by simp) (Or.inl (by rfl))
  simpa using h

/-! ### Claim C6 -/

theorem string_append_data (a b : String) : (a ++ b).data = a.data ++ b.data :=
  String.data_append a b

theorem string_eq_of_data_eq (a b : String) (h : a.data = b.data) : a = b := by
  cases a
  cases b
  simp_all

/-- Substring occurrence stated on `String`. -/
theorem string_includes_iff (c m : String) :
    listIncludes c.data m.data = true ↔ ∃ pre post : String, c = pre ++ m ++ post := by
  rw [listIncludes_iff]
  constructor
  · rintro ⟨x, y, hxy⟩
    refine ⟨String.mk x, String.mk y, ?_⟩
    apply string_eq_of_data_eq
    rw [string_append_data, string_append_data]
    exact hxy
  · rintro ⟨pre, post, h⟩
    refine ⟨pre.data, post.data, ?_⟩
    rw [h, string_append_data, string_append_data]

/-- C6: `isMessageAlreadyInChangelog` is true exactly when the literal
marker `<!-- hash:<hash> -->` occurs as a substring anywhere in the file
content, and a missing (unreadable) file yields `false` rather than an
error. -/
theorem isMessageAlreadyInChangelog_iff_marker_substring (fs : FS)
    (releaseFile messageHash : String) :
    (isMessageAlreadyInChangelog fs releaseFile messageHash = true ↔
      ∃ content pre post, readFile fs releaseFile = some content ∧
        content = pre ++ hashMarker messageHash ++ post) ∧
    (readFile fs releaseFile = none →
      isMessageAlreadyInChangelog fs releaseFile messageHash = false) := by
  constructor
  · unfold isMessageAlreadyInChangelog
    rcases hr : readFile fs releaseFile with _ | content
    · simp
    · rw [string_includes_iff]
      constructor
      · rintro ⟨pre, post, h⟩
        exact ⟨content, pre, post, rfl, h⟩
      · rintro ⟨content2, pre, post, hc, h⟩
        obtain rfl : content = content2 := by
          injection hc
        exact ⟨pre, post, h⟩
  · intro h
    unfold isMessageAlreadyInChangelog
    rw [h]

/-- C6 witness: the marker found in the middle of a document (outside any
Unreleased section), and `false` for a missing file. -/
theorem isMessageAlreadyInChangelog_iff_marker_substring_witness :
    isMessageAlreadyInChangelog
        ⟨[("draft.md", "history\n- old entry <!-- hash:0a1b2c3d -->\ntail")]⟩
        "draft.md" "0a1b2c3d" = true ∧
    isMessageAlreadyInChangelog (⟨[]⟩ : FS) "draft.md" "0a1b2c3d" = false := by
  constructor
  · exact (isMessageAlreadyInChangelog_iff_marker_substring _ _ _).1.mpr
      ⟨"history\n- old entry <!-- hash:0a1b2c3d -->\ntail",
        "history\n- old entry ", "\ntail", rfl, by decide⟩
  · exact (isMessageAlreadyInChangelog_iff_marker_substring _ _ _).2 rfl

/-! ### Claim C3 -/

/-- C3: the open-document resolution policy.  An existing draft is returned
unconditionally (no tag is inspected); otherwise the highest version file is
returned exactly when its decoded frontmatter tag is empty or absent;
otherwise (tagged highest version, or no version files at all) the draft
path is returned even though no draft exists. -/
theorem detectOpenReleaseFile_policy (draftName : String) (fs : FS) :
    (fileExists fs draftName = true → detectOpenReleaseFile draftName fs = draftName) ∧
    (fileExists fs draftName = false →
      ∀ vf, getHighestVersion fs = some vf →
        ∀ content, readFile fs (String.mk vf.2) = some content →
          (fmTagFalsy content = true →
            detectOpenReleaseFile draftName fs = String.mk vf.2) ∧
          (fmTagFalsy content = false →
            detectOpenReleaseFile draftName fs = draftName)) ∧
    (fileExists fs draftName = false → getHighestVersion fs = none →
      detectOpenReleaseFile draftName fs = draftName) := by
  refine ⟨?_, ?_, ?_⟩
  · intro hex
    unfold detectOpenReleaseFile
    rw [if_pos hex]
  · intro hex vf hv content hc
    constructor
    · intro htag
      unfold detectOpenReleaseFile
      rw [if_neg (by simp [hex]), hv]
      simp [hc, htag]
    · intro htag
      unfold detectOpenReleaseFile
      rw [if_neg (by simp [hex]), hv]
      simp [hc, htag]
  · intro hex hv
    unfold detectOpenReleaseFile
    rw [if_neg (by simp [hex]), hv]

/-- C3 witness: the four storage states of the spec table.  The draft wins
over a tagged version file; an untagged highest version file is returned;
a tagged one falls back to the nonexistent draft; an empty directory also
resolves to the draft path. -/
theorem detectOpenReleaseFile_policy_witness :
    detectOpenReleaseFile "draft.md"
        ⟨[("draft.md", "x"), ("1.2.0.md", "---\nversion: 1.2.0\ntag: v1.2.0\n---\n")]⟩ =
      "draft.md" ∧
    detectOpenReleaseFile "draft.md"
        ⟨[("1.2.0.md", "---\nversion: 1.2.0\ntag: \n---\n")]⟩ = "1.2.0.md" ∧
    detectOpenReleaseFile "draft.md"
        ⟨[("1.2.0.md", "---\nversion: 1.2.0\ntag: v1.2.0\n---\n")]⟩ = "draft.md" ∧
    detectOpenReleaseFile "draft.md" (⟨[]⟩ : FS) = "draft.md" := by
  refine ⟨?_, ?_, ?_, ?_⟩
  · exact (detectOpenReleaseFile_policy "draft.md" _).1 (by decide)
  · exact (((detectOpenReleaseFile_policy "draft.md" _).2.1 (by decide)
      (⟨1, 2, 0⟩, "1.2.0.md".data) (by decide)
      "---\nversion: 1.2.0\ntag: \n---\n" (by decide)).1 (by decide))
  · exact (((detectOpenReleaseFile_policy "draft.md" _).2.1 (by decide)
      (⟨1, 2, 0⟩, "1.2.0.md".data) (by decide)
      "---\nversion: 1.2.0\ntag: v1.2.0\n---\n" (by decide)).2 (by decide))
  · exact (detectOpenReleaseFile_policy "draft.md" _).2.2 (by decide) (by decide)

/-! ### Claim C4 -/

theorem vLe_refl (v : Version) : vLe v v := by
  unfold vLe
  omega

/-- The version files the source successfully parses, with their names. -/
def parsedVersionEntries (fs : FS) : List (Version × List Char) :=
  ((dirListing fs).filter matchesVersionPattern).filterMap
    (fun nm => (stemParse nm).map (fun v => (v, nm)))

theorem getHighestVersion_mem_and_max (fs : FS) (vf : Version × List Char)
    (h : getHighestVersion fs = some vf) :
    vf ∈ parsedVersionEntries fs ∧ ∀ w ∈ parsedVersionEntries fs, vLe w.1 vf.1 := by
  unfold getHighestVersion at h
  by_cases he : ((dirListing fs).filter matchesVersionPattern).isEmpty
  · rw [if_pos he] at h
    exact absurd h (by simp)
  · rw [if_neg he] at h
    have hperm := List.perm_insertionSort vGeFst (parsedVersionEntries fs)
    have hsorted := List.sorted_insertionSort vGeFst (parsedVersionEntries fs)
    rcases hl : List.insertionSort vGeFst (parsedVersionEntries fs) with _ | ⟨top, rest⟩
    · rw [show (((dirListing fs).filter matchesVersionPattern).filterMap
          (fun nm => (stemParse nm).map (fun v => (v, nm)))) = parsedVersionEntries fs
          from rfl, hl] at h
      simp at h
    · rw [show (((dirListing fs).filter matchesVersionPattern).filterMap
          (fun nm => (stemParse nm).map (fun v => (v, nm)))) = parsedVersionEntries fs
          from rfl, hl] at h
      simp only [List.head?_cons, Option.some.injEq] at h
      subst h
      rw [hl] at hperm hsorted
      have hmax := (List.sorted_cons.mp hsorted).1
      constructor
      · exact hperm.mem_iff.mp (List.mem_cons_self _ rest)
      · intro w hw
        rcases List.mem_cons.mp (hperm.symm.mem_iff.mp hw) with hww | hww
        · subst hww
          exact vLe_refl _
        · exact hmax w hww

/-- C4: `getNextVersion` returns `0.1.0` for every bump type when no file
matches `^\d+\.\d+\.\d+\.md$`, and otherwise the standard semantic-version
increment of the highest parsed version, where highest means numeric
(major, minor, patch) precedence over every parsed version file — not
lexical name order. -/
theorem getNextVersion_spec (fs : FS) :
    (((dirListing fs).filter matchesVersionPattern) = [] →
      ∀ bt : BumpType, getNextVersion fs bt = "0.1.0") ∧
    (∀ vf, getHighestVersion fs = some vf →
      vf ∈ parsedVersionEntries fs ∧
      (∀ w ∈ parsedVersionEntries fs, vLe w.1 vf.1) ∧
      ∀ bt : BumpType, getNextVersion fs bt = showVersion (incVersion vf.1 bt)) := by
  constructor
  · intro hempty bt
    unfold getNextVersion getHighestVersion
    rw [if_pos (by simp [hempty])]
  · intro vf h
    obtain ⟨hmem, hmax⟩ := getHighestVersion_mem_and_max fs vf h
    refine ⟨hmem, hmax, ?_⟩
    intro bt
    unfold getNextVersion
    rw [h]

/-- C4 witness: an empty directory bootstraps to `0.1.0`; with `2.0.0.md`
and `10.0.0.md` present the numerically highest version `10.0.0` (lexically
the smaller name) is bumped, giving `10.0.1`. -/
theorem getNextVersion_spec_witness :
    getNextVersion (⟨[]⟩ : FS) .major = "0.1.0" ∧
    getNextVersion ⟨[("2.0.0.md", "a"), ("10.0.0.md", "b")]⟩ .patch = "10.0.1" := by
  constructor
  · exact (getNextVersion_spec _).1 (by decide) .major
  · have h := ((getNextVersion_spec ⟨[("2.0.0.md", "a"), ("10.0.0.md", "b")]⟩).2
      (⟨10, 0, 0⟩, "10.0.0.md".data) (by decide)).2.2 .patch
    rw [h]
    decide

/-! ### Claim C5 -/

/-- C5: a release cut bumps the manifest version, not the draft's displayed
frontmatter version.  For every draft content `d` (in particular one
displaying version `0.2.0`) and manifest version `1.0.0`, `release('minor')`
writes `1.1.0.md` (the transformed draft), deletes `draft.md` during the
rename, sets the manifest to `1.1.0`, and then creates a fresh `draft.md`
whose displayed placeholder version is `getNextVersion('patch')` over the
directory's version files, `1.1.1` in this scenario. -/
theorem release_cut_scenario (d today : String) :
    (release "draft.md" today ⟨⟨[("draft.md", d)]⟩, some "1.0.0"⟩ .minor).manifestVersion =
      some "1.1.0" ∧
    readFile (release "draft.md" today ⟨⟨[("draft.md", d)]⟩, some "1.0.0"⟩ .minor).fs
      "1.1.0.md" = some (transformDraftContent "1.1.0" today d) ∧
    readFile (renameDraftFile "draft.md" today ⟨[("draft.md", d)]⟩ "1.1.0")
      "draft.md" = none ∧
    readFile (release "draft.md" today ⟨⟨[("draft.md", d)]⟩, some "1.0.0"⟩ .minor).fs
      "draft.md" = some (draftTemplate "1.1.1" today) := by
  refine ⟨rfl, rfl, rfl, rfl⟩

/-! ### Merge equations (claims C2 and C9) -/

theorem findIdx?_some_lt {α : Type} (p : α → Bool) (l : List α) (i : Nat)
    (h : List.findIdx? p l = some i) : i < l.length := by
  induction l generalizing i with
  | nil => simp [List.findIdx?] at h
  | cons x xs ih =>
    rw [List.findIdx?_cons] at h
    by_cases hx : p x
    · simp [hx] at h
      simp only [List.length_cons]
      omega
    · simp [hx] at h
      obtain ⟨j, hj, hji⟩ := h
      have := ih j hj
      simp only [List.length_cons]
      omega

theorem hexChar_bound (n : Nat) (h : n < 16) : hexCharList.getD n '0' ∈ hexCharList := by
  interval_cases n <;> decide

theorem wordHex_mem_hex (w : Nat) : ∀ c ∈ wordHex w, c ∈ hexCharList := by
  intro c hc
  have hb : ∀ x : Nat, x &&& 15 < 16 := fun x => Nat.lt_succ_of_le Nat.and_le_right
  simp only [wordHex, List.mem_cons, List.not_mem_nil, or_false] at hc
  rcases hc with h | h | h | h | h | h | h | h <;>
    (rw [h]; exact hexChar_bound _ (hb _))

theorem sha256Hex_all_hex (msg : List Nat) : ∀ c ∈ sha256Hex msg, c ∈ hexCharList := by
  intro c hc
  unfold sha256Hex at hc
  simp only [List.mem_append] at hc
  rcases hc with ((((((h | h) | h) | h) | h) | h) | h) | h <;>
    exact wordHex_mem_hex _ c h

theorem sha256Hex_length (msg : List Nat) : (sha256Hex msg).length = 64 := by
  unfold sha256Hex wordHex
  simp

theorem createMessageHash_all_hex (m : String) :
    ∀ c ∈ (createMessageHash m).data, c ∈ hexCharList := by
  intro c hc
  unfold createMessageHash at hc
  simp only at hc
  exact sha256Hex_all_hex _ c (List.mem_of_mem_take hc)

theorem createMessageHash_length (m : String) : (createMessageHash m).data.length = 8 := by
  unfold createMessageHash
  simp only
  rw [List.length_take, sha256Hex_length]
  decide

theorem hex_no_newline (c : Char) (h : c ∈ hexCharList) : c ≠ '\n' := by
  fin_cases h <;> decide

theorem entryLine_no_newline (e : Entry) (h : '\n' ∉ e.polished.data) :
    '\n' ∉ (entryLine e).data := by
  unfold entryLine
  rw [string_append_data, string_append_data, string_append_data]
  intro hmem
  simp only [List.mem_append] at hmem
  rcases hmem with ((hm | hm) | hm) | hm
  · exact h hm
  · revert hm
    decide
  · exact hex_no_newline '\n' (createMessageHash_all_hex _ _ hm) rfl
  · revert hm
    decide

theorem mk_data (l : List Char) : (String.mk l).data = l := rfl

theorem mergeLines_found (lines newLines : List (List Char)) (i : Nat)
    (h : lines.findIdx? (fun l => listIncludes l unreleasedNeedle) = some i) :
    mergeLines lines newLines = lines.take (i + 1) ++ newLines ++ lines.drop (i + 1) := by
  unfold mergeLines
  rw [h]

/-- Line-level image of `mergeEntries` when a `**Unreleased**` line exists:
the entry lines are spliced right after the first such line. -/
theorem mergeEntries_lines_found (content : String) (entries : List Entry) (i : Nat)
    (hfind : (splitChar '\n' content.data).findIdx?
      (fun l => listIncludes l unreleasedNeedle) = some i)
    (hnl : ∀ e ∈ entries, '\n' ∉ e.polished.data) :
    splitChar '\n' (mergeEntries content entries).data =
      (splitChar '\n' content.data).take (i + 1) ++
        entries.map (fun e => (entryLine e).data) ++
        (splitChar '\n' content.data).drop (i + 1) := by
  have hm : (mergeEntries content entries).data =
      joinChar '\n' ((splitChar '\n' content.data).take (i + 1) ++
        entries.map (fun e => (entryLine e).data) ++
        (splitChar '\n' content.data).drop (i + 1)) := by
    unfold mergeEntries
    rw [mk_data, mergeLines_found _ _ i hfind]
  rw [hm]
  have hi := findIdx?_some_lt _ _ _ hfind
  apply splitChar_joinChar
  · have hlen : ((splitChar '\n' content.data).take (i + 1)).length = i + 1 := by
      rw [List.length_take]
      omega
    intro hcon
    have h0 := congrArg List.length hcon
    simp only [List.length_append, List.length_nil] at h0
    omega
  · intro p hp
    simp only [List.mem_append] at hp
    rcases hp with (hp | hp) | hp
    · exact splitChar_sep_not_mem '\n' content.data p (List.mem_of_mem_take hp)
    · obtain ⟨e, he, rfl⟩ := List.mem_map.mp hp
      exact entryLine_no_newline e (hnl e he)
    · exact splitChar_sep_not_mem '\n' content.data p (List.mem_of_mem_drop hp)

/-! ### Claim C2 -/

/-- C2: merging entries `[A, B]` into a document whose first
`**Unreleased**` line sits at index `i` and is immediately followed by the
existing entry line `C` inserts the two new lines right after the header in
batch order, pushing `C` down: the resulting lines are the prefix through
the header, then `A`, `B`, `C`, then the rest — order `[A, B, C]` directly
under the header. -/
theorem merge_inserts_in_order_under_header (content : String) (A B : Entry)
    (i : Nat) (cLine : List Char) (rest : List (List Char))
    (hfind : (splitChar '\n' content.data).findIdx?
      (fun l => listIncludes l unreleasedNeedle) = some i)
    (hdrop : (splitChar '\n' content.data).drop (i + 1) = cLine :: rest)
    (hA : '\n' ∉ A.polished.data) (hB : '\n' ∉ B.polished.data) :
    splitChar '\n' (mergeEntries content [A, B]).data =
      (splitChar '\n' content.data).take (i + 1) ++
        (entryLine A).data :: (entryLine B).data :: cLine :: rest := by
  rw [mergeEntries_lines_found content [A, B] i hfind
    (by
      intro e he
      simp only [List.mem_cons, List.not_mem_nil, or_false] at he
      rcases he with rfl | rfl
      · exact hA
      · exact hB), hdrop]
  simp

/-- C2 witness: a draft whose Unreleased section holds one old entry; two
new entries land above it, in order, directly under the header. -/
theorem merge_inserts_in_order_under_header_witness :
    splitChar '\n' (mergeEntries
        "---\ntag: \n---\n\n## **Unreleased**\n- Old entry <!-- hash:0a1b2c3d -->\n"
        [⟨"add feature", "- add feature"⟩, ⟨"fix parser", "- fix parser"⟩]).data =
      (splitChar '\n'
        ("---\ntag: \n---\n\n## **Unreleased**\n- Old entry <!-- hash:0a1b2c3d -->\n" :
          String).data).take 5 ++
        (entryLine ⟨"add feature", "- add feature"⟩).data ::
        (entryLine ⟨"fix parser", "- fix parser"⟩).data ::
        "- Old entry <!-- hash:0a1b2c3d -->".data :: ["".data] := by
  exact merge_inserts_in_order_under_header
    "---\ntag: \n---\n\n## **Unreleased**\n- Old entry <!-- hash:0a1b2c3d -->\n"
    ⟨"add feature", "- add feature"⟩ ⟨"fix parser", "- fix parser"⟩ 4
    "- Old entry <!-- hash:0a1b2c3d -->".data ["".data]
    (by decide) (by decide) (by decide) (by decide)

/-! ### Claim C9 -/

theorem mergeLines_notfound_release (lines newLines : List (List Char)) (j : Nat)
    (hno : lines.findIdx? (fun l => listIncludes l unreleasedNeedle) = none)
    (hj : lines.findIdx? (fun l => releaseHeaderStart.isPrefixOf l) = some j) :
    mergeLines lines newLines =
      lines.take (j + 1) ++ [[], unreleasedHeaderLine] ++ newLines ++
        [[]] ++ lines.drop (j + 1) := by
  unfold mergeLines
  rw [hno, hj]
  simp only []
  have hjlen := findIdx?_some_lt _ _ _ hj
  have hlen : (lines.take (j + 1)).length = j + 1 := by
    rw [List.length_take]
    omega
  rw [List.append_assoc (lines.take (j + 1))]
  rw [show j + 3 = (lines.take (j + 1)).length + 2 by omega]
  rw [List.take_append 2, List.drop_append 2]
  simp [List.append_assoc]

theorem mergeLines_notfound_norelease (lines newLines : List (List Char))
    (hno : lines.findIdx? (fun l => listIncludes l unreleasedNeedle) = none)
    (hno2 : lines.findIdx? (fun l => releaseHeaderStart.isPrefixOf l) = none) :
    mergeLines lines newLines = lines ++ [[], unreleasedHeaderLine, []] ++ newLines := by
  unfold mergeLines
  rw [hno, hno2]

set_option maxRecDepth 16384 in
/-- C9 counterexample: merging one entry into a document with a `# Release`
line and no Unreleased header places the new entry line immediately after
the created header, *before* the blank line — the claim instead puts a
blank line between the header and the entries.  Line 3 of the result is the
entry line, not a blank. -/
theorem merge_creates_header_entries_before_blank :
    (splitChar '\n' (mergeEntries "# Release 1.0.0\n\nBody"
        [⟨"m", "- m"⟩]).data).get? 2 = some unreleasedHeaderLine ∧
    (splitChar '\n' (mergeEntries "# Release 1.0.0\n\nBody"
        [⟨"m", "- m"⟩]).data).get? 3 = some "- m <!-- hash:62c66a7a -->".data ∧
    (splitChar '\n' (mergeEntries "# Release 1.0.0\n\nBody"
        [⟨"m", "- m"⟩]).data).get? 3 ≠ some [] := by
  refine ⟨by decide, by decide, by decide⟩

/-- C9 (amended): when no line contains `**Unreleased**`: if a line
starting with `# Release` exists, the result contains, immediately after
the first such line, a blank line, the `## **Unreleased**` header line,
then the new entry lines, and then a blank line, followed by the remaining
content; if no such line exists, the blank line, the header, a blank line
and then the entries are appended to the end of the document. -/
theorem merge_without_header_spec (content : String) (entries : List Entry)
    (hnl : ∀ e ∈ entries, '\n' ∉ e.polished.data) :
    (∀ j, (splitChar '\n' content.data).findIdx?
        (fun l => listIncludes l unreleasedNeedle) = none →
      (splitChar '\n' content.data).findIdx?
        (fun l => releaseHeaderStart.isPrefixOf l) = some j →
      splitChar '\n' (mergeEntries content entries).data =
        (splitChar '\n' content.data).take (j + 1) ++ [[], unreleasedHeaderLine] ++
          entries.map (fun e => (entryLine e).data) ++ [[]] ++
          (splitChar '\n' content.data).drop (j + 1)) ∧
    ((splitChar '\n' content.data).findIdx?
        (fun l => listIncludes l unreleasedNeedle) = none →
      (splitChar '\n' content.data).findIdx?
        (fun l => releaseHeaderStart.isPrefixOf l) = none →
      splitChar '\n' (mergeEntries content entries).data =
        splitChar '\n' content.data ++ [[], unreleasedHeaderLine, []] ++
          entries.map (fun e => (entryLine e).data)) := by
  constructor
  · intro j hno hj
    have hm : (mergeEntries content entries).data =
        joinChar '\n' ((splitChar '\n' content.data).take (j + 1) ++
          [[], unreleasedHeaderLine] ++ entries.map (fun e => (entryLine e).data) ++
          [[]] ++ (splitChar '\n' content.data).drop (j + 1)) := by
      unfold mergeEntries
      rw [mk_data, mergeLines_notfound_release _ _ j hno hj]
    rw [hm]
    have hjlen := findIdx?_some_lt _ _ _ hj
    apply splitChar_joinChar
    · intro hcon
      have h0 := congrArg List.length hcon
      have hlen : ((splitChar '\n' content.data).take (j + 1)).length = j + 1 := by
        rw [List.length_take]
        omega
      simp only [List.length_append, List.length_nil] at h0
      omega
    · intro p hp
      have hx : p ∈ (splitChar '\n' content.data).take (j + 1) ∨ p = [] ∨
          p = unreleasedHeaderLine ∨ p ∈ entries.map (fun e => (entryLine e).data) ∨
          p ∈ (splitChar '\n' content.data).drop (j + 1) := by
        simp only [List.mem_append, List.mem_cons, List.mem_singleton,
          List.not_mem_nil, or_false] at hp
        tauto
      rcases hx with hx | hx | hx | hx | hx
      · exact splitChar_sep_not_mem '\n' content.data p (List.mem_of_mem_take hx)
      · simp [hx]
      · subst hx
        decide
      · obtain ⟨e, he, rfl⟩ := List.mem_map.mp hx
        exact entryLine_no_newline e (hnl e he)
      · exact splitChar_sep_not_mem '\n' content.data p (List.mem_of_mem_drop hx)
  · intro hno hno2
    have hm : (mergeEntries content entries).data =
        joinChar '\n' (splitChar '\n' content.data ++ [[], unreleasedHeaderLine, []] ++
          entries.map (fun e => (entryLine e).data)) := by
      unfold mergeEntries
      rw [mk_data, mergeLines_notfound_norelease _ _ hno hno2]
    rw [hm]
    apply splitChar_joinChar
    · intro hcon
      have h0 := congrArg List.length hcon
      simp only [List.length_append, List.length_nil, List.length_cons] at h0
      omega
    · intro p hp
      have hx : p ∈ splitChar '\n' content.data ∨ p = [] ∨ p = unreleasedHeaderLine ∨
          p ∈ entries.map (fun e => (entryLine e).data) := by
        simp only [List.mem_append, List.mem_cons, List.mem_singleton,
          List.not_mem_nil, or_false] at hp
        tauto
      rcases hx with hx | hx | hx | hx
      · exact splitChar_sep_not_mem '\n' content.data p hx
      · simp [hx]
      · subst hx
        decide
      · obtain ⟨e, he, rfl⟩ := List.mem_map.mp hx
        exact entryLine_no_newline e (hnl e he)

/-- C9 (amended) witness: both branches at concrete documents. -/
theorem merge_without_header_spec_witness :
    splitChar '\n' (mergeEntries "# Release 1.0.0\n\nBody"
        [⟨"m", "- m"⟩]).data =
      ["# Release 1.0.0".data] ++ [[], unreleasedHeaderLine] ++
        [(entryLine ⟨"m", "- m"⟩).data] ++ [[]] ++ [[], "Body".data] ∧
    splitChar '\n' (mergeEntries "just text" [⟨"m", "- m"⟩]).data =
      ["just text".data] ++ [[], unreleasedHeaderLine, []] ++
        [(entryLine ⟨"m", "- m"⟩).data] := by
  constructor
  · have h := (merge_without_header_spec "# Release 1.0.0\n\nBody" [⟨"m", "- m"⟩]
      (by intro e he; simp only [List.mem_singleton] at he; subst he; decide)).1
      0 (by decide) (by decide)
    rw [h]
    rfl
  · have h := (merge_without_header_spec "just text" [⟨"m", "- m"⟩]
      (by intro e he; simp only [List.mem_singleton] at he; subst he; decide)).2
      (by decide) (by decide)
    rw [h]
    rfl

/-! ### Claim C8 -/

set_option maxRecDepth 16384 in
/-- C8 (code bug): the release transformation updates the frontmatter
`version`, `date` and empty-placeholder `tag` lines as specified, but the
`## **Unreleased**` header line is only removed when it is immediately
followed by a blank line.  On the draft produced by the add workflow — the
entry line sits directly under the header — the strip pattern
`## **Unreleased**\n\n` does not match and the header line survives into
the released document, contradicting both the claim and the source comment
"Remove **Unreleased** section header but keep content".  The fresh
template (blank line under the header) is the only shape that is
stripped. -/
theorem renameDraft_keeps_unreleased_header_when_entry_adjacent :
    transformDraftContent "0.2.0" "2026-02-02"
        "---\nversion: 0.1.0\ndate: 2026-01-01\ntag: \n---\n\n# Release 0.1.0\n\n## **Unreleased**\n- Fix parser <!-- hash:de939aa5 -->\n\n<!-- New entries will be added here -->\n\n" =
      "---\nversion: 0.2.0\ndate: 2026-02-02\ntag: v0.2.0\n\n---\n\n# Release 0.1.0\n\n## **Unreleased**\n- Fix parser <!-- hash:de939aa5 -->\n\n<!-- New entries will be added here -->\n\n" ∧
    unreleasedHeaderLine ∈ splitChar '\n'
      (transformDraftContent "0.2.0" "2026-02-02"
        "---\nversion: 0.1.0\ndate: 2026-01-01\ntag: \n---\n\n# Release 0.1.0\n\n## **Unreleased**\n- Fix parser <!-- hash:de939aa5 -->\n\n<!-- New entries will be added here -->\n\n").data ∧
    unreleasedHeaderLine ∉ splitChar '\n'
      (transformDraftContent "0.2.0" "2026-02-02"
        (draftTemplate "0.1.0" "2026-01-01")).data := by
  refine ⟨by decide, by decide, by decide⟩

/-! ### Claim C1: trailing hash markers -/

def hashTokenChars : List Char := "<!-- hash:".data

def hashEndChars : List Char := " -->".data

/-- The 8-hex trailing hash of a rendered line: `some h` exactly when the
line ends in the well-formed marker `<!-- hash:h -->` with `h` eight hex
characters (the shape `entryLine` produces, per the spec the marker is the
trailing machine-readable suffix of an entry line). -/
def trailingHash (l : List Char) : Option (List Char) :=
  if l.length < 22 then none
  else
    let t := l.drop (l.length - 22)
    if t.take 10 = hashTokenChars ∧ t.drop 18 = hashEndChars ∧
        ((t.drop 10).take 8).all isHexChar then
      some ((t.drop 10).take 8)
    else none

/-- A line carries the marker of an 8-hex hash `h` when it ends with
`<!-- hash:h -->`. -/
def endsWithMarker (l : List Char) (h : String) : Bool :=
  (hashMarker h).data.isSuffixOf l

/-- No two lines of a document carry the same trailing 8-hex hash marker. -/
def docInv (content : String) : Prop :=
  ((splitChar '\n' content.data).filterMap trailingHash).Nodup

/-- Every document in the directory satisfies `docInv`. -/
def fsInv (fs : FS) : Prop :=
  ∀ name content, readFile fs name = some content → docInv content

theorem hashMarker_data (h : String) :
    (hashMarker h).data = hashTokenChars ++ h.data ++ hashEndChars := by
  unfold hashMarker hashTokenChars hashEndChars
  rw [string_append_data, string_append_data]

/-- Computing `trailingHash` on anything ending in a well-formed marker. -/
theorem trailingHash_append_marker (x h : List Char) (hlen : h.length = 8)
    (hhex : h.all isHexChar = true) :
    trailingHash (x ++ (hashTokenChars ++ h ++ hashEndChars)) = some h := by
  have hm : (hashTokenChars ++ h ++ hashEndChars).length = 22 := by
    simp only [List.length_append, hlen]
    rfl
  have hlen2 : (x ++ (hashTokenChars ++ h ++ hashEndChars)).length = x.length + 22 := by
    rw [List.length_append, hm]
  unfold trailingHash
  rw [hlen2, if_neg (by omega)]
  have hd : (x ++ (hashTokenChars ++ h ++ hashEndChars)).drop (x.length + 22 - 22) =
      hashTokenChars ++ h ++ hashEndChars := by
    rw [show x.length + 22 - 22 = x.length by omega]
    exact List.drop_left x _
  simp only [hd]
  have ht10 : (hashTokenChars ++ h ++ hashEndChars).take 10 = hashTokenChars := by
    rw [List.append_assoc]
    rw [show (10 : Nat) = hashTokenChars.length from rfl]
    exact List.take_left _ _
  have hd10 : (hashTokenChars ++ h ++ hashEndChars).drop 10 = h ++ hashEndChars := by
    rw [List.append_assoc]
    rw [show (10 : Nat) = hashTokenChars.length from rfl]
    exact List.drop_left _ _
  have hd18 : (hashTokenChars ++ h ++ hashEndChars).drop 18 = hashEndChars := by
    rw [List.append_assoc]
    rw [show (18 : Nat) = hashTokenChars.length + 8 from rfl]
    rw [List.drop_append 8]
    rw [show (8 : Nat) = h.length from hlen.symm]
    exact List.drop_left _ _
  have ht8 : (h ++ hashEndChars).take 8 = h := by
    rw [show (8 : Nat) = h.length from hlen.symm]
    exact List.take_left _ _
  rw [if_pos ⟨ht10, by rw [hd18], by rw [hd10, ht8]; exact hhex⟩, hd10, ht8]

/-- Decomposition of a line with a trailing hash. -/
theorem trailingHash_some_decomp (l h : List Char) (hth : trailingHash l = some h) :
    l = l.take (l.length - 22) ++ hashTokenChars ++ h ++ hashEndChars ∧
    h.length = 8 ∧ h.all isHexChar = true := by
  unfold trailingHash at hth
  by_cases hlt : l.length < 22
  · rw [if_pos hlt] at hth
    simp at hth
  · rw [if_neg hlt] at hth
    simp only at hth
    split at hth
    · next hcond =>
      obtain ⟨h1, h2, h3⟩ := hcond
      have hh : h = ((l.drop (l.length - 22)).drop 10).take 8 := by
        injection hth.symm
      have htlen : (l.drop (l.length - 22)).length = 22 := by
        rw [List.length_drop]
        omega
      have hlen8 : h.length = 8 := by
        rw [hh, List.length_take, List.length_drop, htlen]
        decide
      refine ⟨?_, hlen8, by rw [hh]; exact h3⟩
      have hsplit : l = l.take (l.length - 22) ++ l.drop (l.length - 22) :=
        (List.take_append_drop _ l).symm
      have ht : l.drop (l.length - 22) = hashTokenChars ++ h ++ hashEndChars := by
        have e1 : l.drop (l.length - 22) =
            (l.drop (l.length - 22)).take 10 ++ (l.drop (l.length - 22)).drop 10 :=
          (List.take_append_drop _ _).symm
        have e2 : (l.drop (l.length - 22)).drop 10 =
            ((l.drop (l.length - 22)).drop 10).take 8 ++
              ((l.drop (l.length - 22)).drop 10).drop 8 :=
          (List.take_append_drop _ _).symm
        have e3 : ((l.drop (l.length - 22)).drop 10).drop 8 =
            (l.drop (l.length - 22)).drop 18 := by
          rw [List.drop_drop]
        rw [e1, h1]
        rw [e2, e3, h2, ← hh]
        rw [List.append_assoc]
      rw [ht] at hsplit
      simpa [List.append_assoc] using hsplit
    · simp at hth

/-- A line with a trailing hash ends in `>`. -/
theorem trailingHash_some_getLast (l h : List Char) (hth : trailingHash l = some h) :
    l.getLast? = some '>' := by
  obtain ⟨hdec, _, _⟩ := trailingHash_some_decomp l h hth
  rw [hdec]
  rw [List.append_assoc, List.append_assoc]
  rw [List.getLast?_append_of_ne_nil _ (by simp [hashEndChars])]
  rw [List.getLast?_append_of_ne_nil _ (by simp [hashEndChars])]
  rw [List.getLast?_append_of_ne_nil _ (by simp [hashEndChars])]
  decide

/-- The marker is a suffix (hence a substring) of any line carrying it. -/
theorem trailingHash_some_suffix (l h : List Char) (hth : trailingHash l = some h) :
    ∃ x, l = x ++ (hashTokenChars ++ h ++ hashEndChars) := by
  obtain ⟨hdec, _, _⟩ := trailingHash_some_decomp l h hth
  exact ⟨l.take (l.length - 22), by simpa [List.append_assoc] using hdec⟩

/-- `endsWithMarker` and `trailingHash` agree on 8-hex hashes. -/
theorem endsWithMarker_iff_trailingHash (l : List Char) (h : String)
    (hlen : h.data.length = 8) (hhex : h.data.all isHexChar = true) :
    endsWithMarker l h = true ↔ trailingHash l = some h.data := by
  constructor
  · intro he
    unfold endsWithMarker at he
    obtain ⟨x, hx⟩ := List.isSuffixOf_iff_suffix.mp he
    rw [hashMarker_data] at hx
    rw [← hx]
    rw [show x ++ (hashTokenChars ++ h.data ++ hashEndChars) =
      x ++ (hashTokenChars ++ h.data ++ hashEndChars) from rfl]
    exact trailingHash_append_marker x h.data hlen hhex
  · intro ht
    obtain ⟨x, hx⟩ := trailingHash_some_suffix l h.data ht
    unfold endsWithMarker
    apply List.isSuffixOf_iff_suffix.mpr
    rw [hashMarker_data]
    exact ⟨x, hx.symm⟩

/-- Counting marker-carrying lines equals counting the hash among the
trailing hashes. -/
theorem countP_endsWithMarker_eq_count (lines : List (List Char)) (h : String)
    (hlen : h.data.length = 8) (hhex : h.data.all isHexChar = true) :
    lines.countP (fun l => endsWithMarker l h) =
      (lines.filterMap trailingHash).countP (fun x => x = h.data) := by
  induction lines with
  | nil => simp
  | cons l ls ih =>
    by_cases he : endsWithMarker l h = true
    · have ht := (endsWithMarker_iff_trailingHash l h hlen hhex).mp he
      rw [List.countP_cons, List.filterMap_cons, ht, List.countP_cons]
      simp [he, ih]
    · have ht : trailingHash l ≠ some h.data := fun hc =>
        he ((endsWithMarker_iff_trailingHash l h hlen hhex).mpr hc)
      rw [List.countP_cons]
      rcases hth : trailingHash l with _ | h2
      · rw [List.filterMap_cons, hth]
        simp [he, ih]
      · rw [hth] at ht
        have hne : h2 ≠ h.data := fun hc => ht (by rw [hc])
        rw [List.filterMap_cons, hth, List.countP_cons]
        simp [he, hne, ih]

theorem nodup_countP_eq_le_one {α : Type} [DecidableEq α] (l : List α) (hn : l.Nodup)
    (a : α) : l.countP (fun x => x = a) ≤ 1 := by
  induction l with
  | nil => simp
  | cons x xs ih =>
    rw [List.countP_cons]
    rcases List.nodup_cons.mp hn with ⟨hx, hxs⟩
    by_cases hxa : x = a
    · have h0 : xs.countP (fun y => decide (y = a)) = 0 := by
        rw [List.countP_eq_zero]
        intro y hy
        simp only [decide_eq_true_eq]
        intro hya
        subst hya
        subst hxa
        exact hx hy
      simp [h0, hxa]
    · simpa [hxa] using ih hxs

/-! ### Claim C1: version and template line shapes -/

theorem ofNat_digit_isDigit (k : Nat) (h : k < 10) :
    (Char.ofNat (48 + k)).isDigit = true := by
  interval_cases k <;> decide

theorem natToCharsAux_all_digit (fuel : Nat) :
    ∀ n, ∀ c ∈ natToCharsAux fuel n, c.isDigit = true := by
  induction fuel with
  | zero => simp [natToCharsAux]
  | succ fuel ih =>
    intro n c hc
    unfold natToCharsAux at hc
    by_cases hn : n < 10
    · rw [if_pos hn] at hc
      simp only [List.mem_singleton] at hc
      subst hc
      exact ofNat_digit_isDigit n hn
    · rw [if_neg hn] at hc
      rcases List.mem_append.mp hc with hm | hm
      · exact ih (n / 10) c hm
      · simp only [List.mem_singleton] at hm
        subst hm
        exact ofNat_digit_isDigit (n % 10) (Nat.mod_lt n (by omega))

theorem natToChars_all_digit (n : Nat) : ∀ c ∈ natToChars n, c.isDigit = true :=
  natToCharsAux_all_digit (n + 1) n

theorem natToChars_ne_nil (n : Nat) : natToChars n ≠ [] := by
  unfold natToChars natToCharsAux
  by_cases hn : n < 10
  · rw [if_pos hn]
    simp
  · rw [if_neg hn]
    simp

theorem getLast?_mem_of_eq {α : Type} (l : List α) (a : α) (h : l.getLast? = some a) :
    a ∈ l := by
  induction l with
  | nil => simp at h
  | cons x xs ih =>
    cases xs with
    | nil => simp_all
    | cons y ys =>
      rw [List.getLast?_cons_cons] at h
      exact List.mem_cons_of_mem x (ih h)

theorem natToChars_getLast_digit (n : Nat) :
    ∀ c, (natToChars n).getLast? = some c → c.isDigit = true := fun c hc =>
  natToChars_all_digit n c (getLast?_mem_of_eq _ c hc)

theorem showVersion_chars (v : Version) :
    ∀ c ∈ (showVersion v).data, c.isDigit = true ∨ c = '.' := by
  intro c hc
  unfold showVersion at hc
  rw [mk_data] at hc
  rcases List.mem_append.mp hc with hm | hm
  · rcases List.mem_append.mp hm with hm2 | hm2
    · exact Or.inl (natToChars_all_digit _ c hm2)
    · rcases List.mem_cons.mp hm2 with hm3 | hm3
      · exact Or.inr hm3
      · exact Or.inl (natToChars_all_digit _ c hm3)
  · rcases List.mem_cons.mp hm with hm3 | hm3
    · exact Or.inr hm3
    · exact Or.inl (natToChars_all_digit _ c hm3)

theorem showVersion_ne_nil (v : Version) : (showVersion v).data ≠ [] := by
  unfold showVersion
  rw [mk_data]
  intro hcon
  have := congrArg List.length hcon
  simp only [List.length_append, List.length_cons, List.length_nil] at this
  omega

theorem showVersion_getLast_digit (v : Version) :
    ∀ c, (showVersion v).data.getLast? = some c → c.isDigit = true := by
  intro c hc
  unfold showVersion at hc
  rw [mk_data] at hc
  rw [List.getLast?_append_of_ne_nil _ (by simp [natToChars_ne_nil])] at hc
  rcases hnp : natToChars v.vpatch with _ | ⟨x, xs⟩
  · exact absurd hnp (natToChars_ne_nil _)
  · rw [hnp, List.getLast?_cons_cons] at hc
    exact natToChars_getLast_digit v.vpatch c (by rw [hnp]; exact hc)

/-- Shape of the strings `getNextVersion` can produce: nonempty, digits and
dots only, ending in a digit. -/
theorem getNextVersion_shape (fs : FS) (bt : BumpType) :
    (getNextVersion fs bt).data ≠ [] ∧
    (∀ c ∈ (getNextVersion fs bt).data, c.isDigit = true ∨ c = '.') ∧
    (∀ c, (getNextVersion fs bt).data.getLast? = some c → c.isDigit = true) := by
  rcases hg : getHighestVersion fs with _ | vf
  · have he : getNextVersion fs bt = "0.1.0" := by
      unfold getNextVersion
      rw [hg]
    rw [he]
    refine ⟨by decide, by decide, ?_⟩
    intro c hc
    have h0 : some '0' = some c := hc
    injection h0 with h0
    subst h0
    decide
  · have he : getNextVersion fs bt = showVersion (incVersion vf.1 bt) := by
      unfold getNextVersion
      rw [hg]
    rw [he]
    exact ⟨showVersion_ne_nil _, showVersion_chars _, showVersion_getLast_digit _⟩

/-- The exact line decomposition of the document template. -/
theorem draftTemplate_lines (v today : String)
    (hv : '\n' ∉ v.data) (ht : '\n' ∉ today.data) :
    splitChar '\n' (draftTemplate v today).data =
      ["---".data, "version: ".data ++ v.data, "date: ".data ++ today.data,
       "tag: ".data, "---".data, [], "# Release ".data ++ v.data, [],
       "## **Unreleased**".data, [], "<!-- New entries will be added here -->".data,
       [], []] := by
  have hdata : (draftTemplate v today).data =
      "---".data ++ '\n' :: (("version: ".data ++ v.data) ++ '\n' ::
        (("date: ".data ++ today.data) ++ '\n' :: ("tag: ".data ++ '\n' ::
        ("---".data ++ '\n' :: (([] : List Char) ++ '\n' ::
        (("# Release ".data ++ v.data) ++ '\n' :: (([] : List Char) ++ '\n' ::
        ("## **Unreleased**".data ++ '\n' :: (([] : List Char) ++ '\n' ::
        ("<!-- New entries will be added here -->".data ++ '\n' ::
        (([] : List Char) ++ '\n' :: ([] : List Char)))))))))))) := by
    unfold draftTemplate
    simp only [string_append_data]
    simp [List.append_assoc]
  rw [hdata]
  have hnmem : ∀ s : List Char, '\n' ∉ s → '\n' ∉ s ++ v.data → True := fun _ _ _ => trivial
  rw [splitChar_append_cons _ _ _ (by decide)]
  rw [splitChar_append_cons _ _ _ (by
    intro hm
    rcases List.mem_append.mp hm with hm2 | hm2
    · revert hm2; decide
    · exact hv hm2)]
  rw [splitChar_append_cons _ _ _ (by
    intro hm
    rcases List.mem_append.mp hm with hm2 | hm2
    · revert hm2; decide
    · exact ht hm2)]
  rw [splitChar_append_cons _ _ _ (by decide)]
  rw [splitChar_append_cons _ _ _ (by decide)]
  rw [splitChar_append_cons _ _ _ (by simp)]
  rw [splitChar_append_cons _ _ _ (by
    intro hm
    rcases List.mem_append.mp hm with hm2 | hm2
    · revert hm2; decide
    · exact hv hm2)]
  rw [splitChar_append_cons _ _ _ (by simp)]
  rw [splitChar_append_cons _ _ _ (by decide)]
  rw [splitChar_append_cons _ _ _ (by simp)]
  rw [splitChar_append_cons _ _ _ (by decide)]
  rw [splitChar_append_cons _ _ _ (by simp)]
  rfl

/-! ### Claim C1: the template carries no markers -/

theorem trailingHash_nil : trailingHash [] = none := by decide

theorem char_isDigit_ne_gt (c : Char) (h : c.isDigit = true) : c ≠ '>' := by
  intro he
  rw [he] at h
  exact absurd h (by decide)

theorem trailingHash_none_of_getLast (l : List Char)
    (h : ∀ c, l.getLast? = some c → c ≠ '>') : trailingHash l = none := by
  rcases ht : trailingHash l with _ | h2
  · rfl
  · exact absurd rfl (h '>' (trailingHash_some_getLast l h2 ht))

theorem draftTemplate_trailingHash_none (v today : String)
    (hvne : v.data ≠ [])
    (hv : ∀ c ∈ v.data, c.isDigit = true ∨ c = '.')
    (hvl : ∀ c, v.data.getLast? = some c → c.isDigit = true)
    (ht : ∀ c ∈ today.data, c.isDigit = true ∨ c = '-') :
    ∀ l ∈ splitChar '\n' (draftTemplate v today).data, trailingHash l = none := by
  have hvnl : '\n' ∉ v.data := by
    intro hm
    rcases hv _ hm with h | h
    · exact absurd h (by decide)
    · exact absurd h (by decide)
  have htnl : '\n' ∉ today.data := by
    intro hm
    rcases ht _ hm with h | h
    · exact absurd h (by decide)
    · exact absurd h (by decide)
  rw [draftTemplate_lines v today hvnl htnl]
  intro l hl
  simp only [List.mem_cons, List.not_mem_nil, or_false] at hl
  rcases hl with rfl | rfl | rfl | rfl | rfl | rfl | rfl | rfl | rfl | rfl | rfl | rfl | rfl
  · decide
  · apply trailingHash_none_of_getLast
    intro c hgl
    rw [List.getLast?_append_of_ne_nil _ hvne] at hgl
    exact char_isDigit_ne_gt c (hvl c hgl)
  · rcases htd : today.data with _ | ⟨x, xs⟩
    · decide
    · apply trailingHash_none_of_getLast
      intro c hgl
      rw [List.getLast?_append_of_ne_nil _ (by simp)] at hgl
      have hmem : c ∈ x :: xs := getLast?_mem_of_eq _ c hgl
      rw [← htd] at hmem
      rcases ht c hmem with h | h
      · exact char_isDigit_ne_gt c h
      · rw [h]
        decide
  · decide
  · decide
  · decide
  · apply trailingHash_none_of_getLast
    intro c hgl
    rw [List.getLast?_append_of_ne_nil _ hvne] at hgl
    exact char_isDigit_ne_gt c (hvl c hgl)
  · decide
  · decide
  · decide
  · decide
  · decide
  · decide

theorem draftTemplate_docInv (v today : String)
    (hvne : v.data ≠ [])
    (hv : ∀ c ∈ v.data, c.isDigit = true ∨ c = '.')
    (hvl : ∀ c, v.data.getLast? = some c → c.isDigit = true)
    (ht : ∀ c ∈ today.data, c.isDigit = true ∨ c = '-') :
    docInv (draftTemplate v today) := by
  unfold docInv
  rw [List.filterMap_eq_nil_iff.mpr (draftTemplate_trailingHash_none v today hvne hv hvl ht)]
  exact List.nodup_nil

/-! ### Claim C1: merge preserves the invariant -/

theorem mergeLines_decomp (lines newLines : List (List Char))
    (hsep : ∀ l ∈ lines, '\n' ∉ l) :
    ∃ A B, mergeLines lines newLines = A ++ newLines ++ B ∧
      A ≠ [] ∧
      (∀ l ∈ A, '\n' ∉ l) ∧ (∀ l ∈ B, '\n' ∉ l) ∧
      A.filterMap trailingHash ++ B.filterMap trailingHash =
        lines.filterMap trailingHash := by
  rcases hfind : lines.findIdx? (fun l => listIncludes l unreleasedNeedle) with _ | i
  · rcases hrel : lines.findIdx? (fun l => releaseHeaderStart.isPrefixOf l) with _ | j
    · refine ⟨lines ++ [[], unreleasedHeaderLine, []], [], ?_, ?_, ?_, ?_, ?_⟩
      · rw [mergeLines_notfound_norelease lines newLines hfind hrel]
        simp
      · simp
      · intro l hl
        rcases List.mem_append.mp hl with hm | hm
        · exact hsep l hm
        · simp only [List.mem_cons, List.not_mem_nil, or_false] at hm
          rcases hm with rfl | rfl | rfl
          · simp
          · decide
          · simp
      · simp
      · rw [List.filterMap_append]
        have h3 : ([[], unreleasedHeaderLine, []] :
            List (List Char)).filterMap trailingHash = [] := by decide
        rw [h3]
        simp
    · refine ⟨lines.take (j + 1) ++ [[], unreleasedHeaderLine],
        [[]] ++ lines.drop (j + 1), ?_, ?_, ?_, ?_, ?_⟩
      · rw [mergeLines_notfound_release lines newLines j hfind hrel]
        simp [List.append_assoc]
      · intro hcon
        have h0 := congrArg List.length hcon
        simp only [List.length_append, List.length_cons, List.length_nil] at h0
        omega
      · intro l hl
        rcases List.mem_append.mp hl with hm | hm
        · exact hsep l (List.mem_of_mem_take hm)
        · simp only [List.mem_cons, List.not_mem_nil, or_false] at hm
          rcases hm with rfl | rfl
          · simp
          · decide
      · intro l hl
        rcases List.mem_append.mp hl with hm | hm
        · simp only [List.mem_singleton] at hm
          simp [hm]
        · exact hsep l (List.mem_of_mem_drop hm)
      · rw [List.filterMap_append, List.filterMap_append]
        have h2 : ([[], unreleasedHeaderLine] :
            List (List Char)).filterMap trailingHash = [] := by decide
        have h1 : ([[]] : List (List Char)).filterMap trailingHash = [] := by decide
        rw [h2, h1]
        rw [List.append_nil, List.nil_append, ← List.filterMap_append,
          List.take_append_drop]
  · refine ⟨lines.take (i + 1), lines.drop (i + 1), ?_, ?_, ?_, ?_, ?_⟩
    · exact mergeLines_found lines newLines i hfind
    · have hi := findIdx?_some_lt _ _ _ hfind
      intro hcon
      have h0 := congrArg List.length hcon
      rw [List.length_take] at h0
      simp only [List.length_nil] at h0
      omega
    · exact fun l hl => hsep l (List.mem_of_mem_take hl)
    · exact fun l hl => hsep l (List.mem_of_mem_drop hl)
    · rw [← List.filterMap_append, List.take_append_drop]

theorem createMessageHash_all_hexB (m : String) :
    (createMessageHash m).data.all isHexChar = true := by
  rw [List.all_eq_true]
  intro c hc
  unfold isHexChar
  exact List.elem_iff.mpr (createMessageHash_all_hex m c hc)

theorem entryLine_data_decomp (e : Entry) :
    (entryLine e).data = (e.polished.data ++ [' ']) ++
      (hashTokenChars ++ (createMessageHash e.message).data ++ hashEndChars) := by
  unfold entryLine
  rw [string_append_data, string_append_data, string_append_data]
  have hsp : (" <!-- hash:" : String).data = [' '] ++ hashTokenChars := rfl
  have hed : (" -->" : String).data = hashEndChars := rfl
  rw [hsp, hed]
  simp [List.append_assoc]

theorem trailingHash_entryLine (e : Entry) :
    trailingHash (entryLine e).data = some (createMessageHash e.message).data := by
  rw [entryLine_data_decomp]
  exact trailingHash_append_marker _ _ (createMessageHash_length e.message)
    (createMessageHash_all_hexB e.message)

theorem entryLines_filterMap (entries : List Entry) :
    (entries.map (fun e => (entryLine e).data)).filterMap trailingHash =
      entries.map (fun e => (createMessageHash e.message).data) := by
  induction entries with
  | nil => rfl
  | cons e es ih =>
    rw [List.map_cons, List.filterMap_cons, trailingHash_entryLine, List.map_cons, ih]

theorem mergeEntries_docInv (content : String) (entries : List Entry)
    (hnl : ∀ e ∈ entries, '\n' ∉ e.polished.data)
    (hinv : docInv content)
    (hnodup : (entries.map (fun e => (createMessageHash e.message).data)).Nodup)
    (hfresh : ∀ e ∈ entries, ∀ l ∈ splitChar '\n' content.data,
      trailingHash l ≠ some (createMessageHash e.message).data) :
    docInv (mergeEntries content entries) := by
  obtain ⟨A, B, hm, hAne, hA, hB, hfm⟩ := mergeLines_decomp (splitChar '\n' content.data)
    (entries.map (fun e => (entryLine e).data))
    (splitChar_sep_not_mem '\n' content.data)
  have hlines : splitChar '\n' (mergeEntries content entries).data =
      A ++ entries.map (fun e => (entryLine e).data) ++ B := by
    have hdata : (mergeEntries content entries).data =
        joinChar '\n' (A ++ entries.map (fun e => (entryLine e).data) ++ B) := by
      unfold mergeEntries
      rw [mk_data, hm]
    rw [hdata]
    apply splitChar_joinChar
    · intro hcon
      rcases hAe : A with _ | ⟨a, as⟩
      · exact hAne hAe
      · rw [hAe] at hcon
        simp at hcon
    · intro p hp
      rcases List.mem_append.mp hp with hp2 | hp2
      · rcases List.mem_append.mp hp2 with hp3 | hp3
        · exact hA p hp3
        · obtain ⟨e, he, rfl⟩ := List.mem_map.mp hp3
          exact entryLine_no_newline e (hnl e he)
      · exact hB p hp2
  unfold docInv
  rw [hlines, List.filterMap_append, List.filterMap_append, entryLines_filterMap]
  have hperm : List.Perm
      (A.filterMap trailingHash ++ entries.map (fun e => (createMessageHash e.message).data)
        ++ B.filterMap trailingHash)
      ((A.filterMap trailingHash ++ B.filterMap trailingHash) ++
        entries.map (fun e => (createMessageHash e.message).data)) := by
    rw [List.append_assoc, List.append_assoc]
    exact List.Perm.append_left _ List.perm_append_comm
  apply (List.Perm.nodup_iff hperm).mpr
  rw [hfm]
  apply List.nodup_append.mpr
  refine ⟨hinv, hnodup, ?_⟩
  intro x hx hx2
  obtain ⟨l, hl, hth⟩ := List.mem_filterMap.mp hx
  obtain ⟨e, he, hxe⟩ := List.mem_map.mp hx2
  exact hfresh e he l hl (by rw [hth, hxe])

/-! ### Claim C1: the workflow preserves the invariant -/

theorem fsInv_writeFile (fs : FS) (name content : String)
    (hinv : fsInv fs) (hdoc : docInv content) :
    fsInv (writeFile fs name content) := by
  intro n c hr
  by_cases hn : n = name
  · subst hn
    rw [readFile_writeFile_self] at hr
    injection hr with hr
    subst hr
    exact hdoc
  · rw [readFile_writeFile_other fs name content n hn] at hr
    exact hinv n c hr

theorem fresh_of_not_includes (content m : String)
    (hni : listIncludes content.data (hashMarker (createMessageHash m)).data = false) :
    ∀ l ∈ splitChar '\n' content.data,
      trailingHash l ≠ some (createMessageHash m).data := by
  intro l hl hth
  obtain ⟨x, hx⟩ := trailingHash_some_suffix l _ hth
  obtain ⟨a, b, hab⟩ := splitChar_part_embeds '\n' content.data l hl
  have hinc : listIncludes content.data (hashMarker (createMessageHash m)).data = true := by
    apply (listIncludes_iff _ _).mpr
    rw [hashMarker_data]
    exact ⟨a ++ x, b, by rw [hab, hx]; simp [List.append_assoc]⟩
  rw [hinc] at hni
  exact absurd hni (by simp)

theorem updateChangelogFileFS_none (today : String) (fs : FS) (filePath : String)
    (entries : List Entry) (hr : readFile fs filePath = none) :
    updateChangelogFileFS today fs filePath entries =
      writeFile (writeFile fs filePath (draftTemplate (getNextVersion fs .patch) today))
        filePath
        (mergeEntries (draftTemplate (getNextVersion fs .patch) today) entries) := by
  unfold updateChangelogFileFS
  simp only [hr, readFile_writeFile_self]

theorem updateChangelogFileFS_some (today : String) (fs : FS) (filePath : String)
    (entries : List Entry) (content : String)
    (hr : readFile fs filePath = some content) :
    updateChangelogFileFS today fs filePath entries =
      writeFile fs filePath (mergeEntries content entries) := by
  unfold updateChangelogFileFS
  simp only [hr]

theorem updateChangelogFileFS_fsInv (today : String) (fs : FS) (filePath : String)
    (entries : List Entry)
    (htoday : ∀ c ∈ today.data, c.isDigit = true ∨ c = '-')
    (hnl : ∀ e ∈ entries, '\n' ∉ e.polished.data)
    (hnodup : (entries.map (fun e => (createMessageHash e.message).data)).Nodup)
    (hfresh : ∀ e ∈ entries,
      isMessageAlreadyInChangelog fs filePath (createMessageHash e.message) = false)
    (hinv : fsInv fs) :
    fsInv (updateChangelogFileFS today fs filePath entries) := by
  rcases hr : readFile fs filePath with _ | content
  · rw [updateChangelogFileFS_none today fs filePath entries hr]
    obtain ⟨hne, hchars, hlast⟩ := getNextVersion_shape fs .patch
    have htpl : docInv (draftTemplate (getNextVersion fs .patch) today) :=
      draftTemplate_docInv _ today hne hchars hlast htoday
    apply fsInv_writeFile
    · exact fsInv_writeFile fs _ _ hinv htpl
    · apply mergeEntries_docInv _ _ hnl htpl hnodup
      intro e he l hl
      rw [draftTemplate_trailingHash_none _ today hne hchars hlast htoday l hl]
      simp
  · rw [updateChangelogFileFS_some today fs filePath entries content hr]
    apply fsInv_writeFile _ _ _ hinv
    apply mergeEntries_docInv _ _ hnl (hinv filePath content hr) hnodup
    intro e he
    apply fresh_of_not_includes
    have hf := hfresh e he
    unfold isMessageAlreadyInChangelog at hf
    rw [hr] at hf
    exact hf

theorem jsOrElse_some_empty (s fb : String) (h : s.isEmpty = true) :
    jsOrElse (some s) fb = fb := by
  simp [jsOrElse, h]

theorem jsOrElse_some_val (s fb : String) (h : ¬ s.isEmpty = true) :
    jsOrElse (some s) fb = s := by
  simp [jsOrElse, h]

/-- The raw messages an add operation brings in. -/
def opMessages : AddOp → List String
  | .custom msg => [msg]
  | .commits msgs => msgs

theorem mem_enum_snd {α : Type} (l : List α) (p : Nat × α) (hp : p ∈ l.enum) :
    p.2 ∈ l := by
  have hm := List.mem_map_of_mem Prod.snd hp
  rwa [List.enum_map_snd] at hm

theorem buildEntries_message (filtered polished : List String) :
    (buildEntries filtered polished).map Entry.message = filtered := by
  unfold buildEntries
  rw [List.map_map]
  have he : (Entry.message ∘ fun p : Nat × String =>
      Entry.mk p.2 (jsOrElse (polished.get? p.1) ("- " ++ p.2))) = Prod.snd := rfl
  rw [he]
  exact List.enum_map_snd filtered

theorem buildEntries_mem (filtered polished : List String) (e : Entry)
    (he : e ∈ buildEntries filtered polished) :
    e.message ∈ filtered ∧
      (e.polished = "- " ++ e.message ∨ ∃ p ∈ polished, e.polished = p) := by
  unfold buildEntries at he
  obtain ⟨⟨i, m⟩, hmem, rfl⟩ := List.mem_map.mp he
  have h2 : jsOrElse (polished.get? i) ("- " ++ m) = "- " ++ m ∨
      ∃ p ∈ polished, jsOrElse (polished.get? i) ("- " ++ m) = p := by
    rcases hg : polished.get? i with _ | p
    · exact Or.inl rfl
    · by_cases hp : p.isEmpty = true
      · exact Or.inl (jsOrElse_some_empty p _ hp)
      · exact Or.inr ⟨p, List.get?_mem hg, jsOrElse_some_val p _ hp⟩
  exact ⟨mem_enum_snd filtered (i, m) hmem, h2⟩

theorem dash_no_newline (m : String) (hm : '\n' ∉ m.data) :
    '\n' ∉ ("- " ++ m).data := by
  rw [string_append_data]
  intro hmem
  rcases List.mem_append.mp hmem with h | h
  · revert h
    decide
  · exact hm h

theorem data_map_nodup (l : List String)
    (h : (l.map createMessageHash).Nodup) :
    (l.map (fun m => (createMessageHash m).data)).Nodup := by
  have he : (fun m => (createMessageHash m).data) =
      String.data ∘ createMessageHash := rfl
  rw [he, ← List.map_map]
  exact h.map (fun a b hab => string_eq_of_data_eq a b hab)

theorem addToChangelog_fsInv (polish : List String → List String)
    (today draftName : String) (fs : FS) (op : AddOp)
    (hpolish : ∀ msgs, (∀ m ∈ msgs, '\n' ∉ m.data) → ∀ p ∈ polish msgs, '\n' ∉ p.data)
    (hmsgs : ∀ m ∈ opMessages op, '\n' ∉ m.data)
    (hnodup : ((opMessages op).map createMessageHash).Nodup)
    (htoday : ∀ c ∈ today.data, c.isDigit = true ∨ c = '-')
    (hinv : fsInv fs) :
    fsInv (addToChangelog polish today draftName fs op) := by
  rcases op with msg | msgs
  · simp only [addToChangelog]
    simp only [opMessages] at hmsgs
    have hmsg : '\n' ∉ msg.data := hmsgs msg (List.mem_singleton.mpr rfl)
    by_cases hdup : isMessageAlreadyInChangelog fs (detectOpenReleaseFile draftName fs)
        (createMessageHash msg) = true
    · rw [if_pos hdup]
      exact hinv
    · rw [if_neg hdup]
      apply updateChangelogFileFS_fsInv _ _ _ _ htoday _ _ _ hinv
      · intro e he
        simp only [List.mem_singleton] at he
        subst he
        simp only
        rcases hg : (polish [msg]).get? 0 with _ | p
        · exact dash_no_newline msg hmsg
        · by_cases hp : p.isEmpty = true
          · rw [jsOrElse_some_empty p _ hp]
            exact dash_no_newline msg hmsg
          · rw [jsOrElse_some_val p _ hp]
            exact hpolish [msg]
              (fun m hm => by
                simp only [List.mem_singleton] at hm
                subst hm
                exact hmsg)
              p (List.get?_mem hg)
      · simp
      · intro e he
        simp only [List.mem_singleton] at he
        subst he
        simp only
        exact Bool.eq_false_iff.mpr hdup
  · simp only [addToChangelog]
    simp only [opMessages] at hmsgs hnodup
    by_cases hemp : (msgs.filter (fun m => !(isMessageAlreadyInChangelog fs
        (detectOpenReleaseFile draftName fs) (createMessageHash m)))).isEmpty
    · rw [if_pos hemp]
      exact hinv
    · rw [if_neg hemp]
      have hsub : ∀ m ∈ msgs.filter (fun m => !(isMessageAlreadyInChangelog fs
          (detectOpenReleaseFile draftName fs) (createMessageHash m))), m ∈ msgs :=
        fun m hm => List.mem_of_mem_filter hm
      apply updateChangelogFileFS_fsInv _ _ _ _ htoday _ _ _ hinv
      · intro e he
        obtain ⟨hmem, hpol⟩ := buildEntries_mem _ _ e he
        rcases hpol with hp | ⟨p, hpm, hp⟩
        · rw [hp]
          exact dash_no_newline _ (hmsgs _ (hsub _ hmem))
        · rw [hp]
          exact hpolish _ (fun m hm => hmsgs m (hsub m hm)) p hpm
      · have hmap : (buildEntries (msgs.filter (fun m => !(isMessageAlreadyInChangelog fs
            (detectOpenReleaseFile draftName fs) (createMessageHash m))))
              (polish (msgs.filter (fun m => !(isMessageAlreadyInChangelog fs
                (detectOpenReleaseFile draftName fs) (createMessageHash m)))))).map
              (fun e => (createMessageHash e.message).data) =
            (msgs.filter (fun m => !(isMessageAlreadyInChangelog fs
              (detectOpenReleaseFile draftName fs) (createMessageHash m)))).map
              (fun m => (createMessageHash m).data) := by
          have he : (fun e : Entry => (createMessageHash e.message).data) =
              (fun m => (createMessageHash m).data) ∘ Entry.message := rfl
          rw [he, ← List.map_map, buildEntries_message]
        rw [hmap]
        apply data_map_nodup
        exact hnodup.sublist (List.Sublist.map createMessageHash (List.filter_sublist msgs))
      · intro e he
        obtain ⟨hmem, _⟩ := buildEntries_mem _ _ e he
        have hf := List.of_mem_filter hmem
        simp only [Bool.not_eq_true'] at hf
        exact hf

theorem applyOps_fsInv (polish : List String → List String)
    (today draftName : String) (ops : List AddOp) (fs : FS)
    (hpolish : ∀ msgs, (∀ m ∈ msgs, '\n' ∉ m.data) → ∀ p ∈ polish msgs, '\n' ∉ p.data)
    (hops : ∀ op ∈ ops, ∀ m ∈ opMessages op, '\n' ∉ m.data)
    (hnodups : ∀ op ∈ ops, ((opMessages op).map createMessageHash).Nodup)
    (htoday : ∀ c ∈ today.data, c.isDigit = true ∨ c = '-')
    (hinv : fsInv fs) :
    fsInv (applyOps polish today draftName fs ops) := by
  induction ops generalizing fs with
  | nil => exact hinv
  | cons op ops ih =>
    unfold applyOps
    rw [List.foldl_cons]
    exact ih (addToChangelog polish today draftName fs op)
      (fun o ho => hops o (List.mem_cons_of_mem op ho))
      (fun o ho => hnodups o (List.mem_cons_of_mem op ho))
      (addToChangelog_fsInv polish today draftName fs op hpolish
        (hops op (List.mem_cons_self op ops))
        (hnodups op (List.mem_cons_self op ops)) htoday hinv)

/-! ### Claim C1: statement, counterexample, witness -/

theorem polishFallback_no_newline (msgs : List String)
    (hm : ∀ m ∈ msgs, '\n' ∉ m.data) :
    ∀ p ∈ polishFallback msgs, '\n' ∉ p.data := by
  intro p hp
  obtain ⟨m, hmm, rfl⟩ := List.mem_map.mp hp
  exact dash_no_newline m (hm m hmm)

set_option maxRecDepth 100000 in
/-- C1 counterexample: the claim fails as stated.  Starting from a valid
open document (the fresh template, whose lines carry no duplicate marker)
and adding one batch of commits containing two commits with identical
message text `"fix parser"`, the dedup filter (which only consults the
file) passes both, and the resulting document contains two entry lines
carrying the same 8-hex hash marker `036ca9f7`. -/
theorem duplicate_batch_duplicate_markers :
    docInv (draftTemplate "0.1.0" "2026-01-01") ∧
    createMessageHash "fix parser" = "036ca9f7" ∧
    ("036ca9f7" : String).data.length = 8 ∧
    ("036ca9f7" : String).data.all isHexChar = true ∧
    (splitChar '\n' ((readFile (applyOps polishFallback "2026-01-01" "draft.md"
        ⟨[("draft.md", draftTemplate "0.1.0" "2026-01-01")]⟩
        [AddOp.commits ["fix parser", "fix parser"]]) "draft.md").getD "").data).countP
      (fun l => endsWithMarker l "036ca9f7") = 2 :=
  ⟨by unfold docInv; decide, by decide, by decide, by decide, by decide⟩

/-- C1 (amended): for every directory whose documents satisfy the
no-duplicate-marker invariant and every sequence of add operations whose
batches have pairwise-distinct message hashes (in particular no two commits
with identical message text; single-line messages, single-line polished
output, and a digits-and-dashes date as the workflow produces), every
document after the sequence still has no two lines carrying the same 8-hex
hash marker; and attempting to add a custom message whose hash is already
present in the open document is a no-op, the directory is left unchanged. -/
theorem changelog_no_duplicate_markers (polish : List String → List String)
    (today draftName : String) (fs : FS) (ops : List AddOp)
    (hpolish : ∀ msgs, (∀ m ∈ msgs, '\n' ∉ m.data) → ∀ p ∈ polish msgs, '\n' ∉ p.data)
    (hops : ∀ op ∈ ops, ∀ m ∈ opMessages op, '\n' ∉ m.data)
    (hnodups : ∀ op ∈ ops, ((opMessages op).map createMessageHash).Nodup)
    (htoday : ∀ c ∈ today.data, c.isDigit = true ∨ c = '-')
    (hinv : fsInv fs) :
    (∀ name content,
      readFile (applyOps polish today draftName fs ops) name = some content →
      ∀ h : String, h.data.length = 8 → h.data.all isHexChar = true →
        (splitChar '\n' content.data).countP (fun l => endsWithMarker l h) ≤ 1) ∧
    (∀ fs2 msg, isMessageAlreadyInChangelog fs2 (detectOpenReleaseFile draftName fs2)
        (createMessageHash msg) = true →
      addToChangelog polish today draftName fs2 (AddOp.custom msg) = fs2) := by
  constructor
  · intro name content hread h hlen hhex
    have hres := applyOps_fsInv polish today draftName ops fs hpolish hops hnodups htoday hinv
    have hdoc := hres name content hread
    rw [countP_endsWithMarker_eq_count _ h hlen hhex]
    exact nodup_countP_eq_le_one _ hdoc h.data
  · intro fs2 msg hdup
    simp only [addToChangelog]
    rw [if_pos hdup]

set_option maxRecDepth 100000 in
/-- C1 (amended) witness: a singleton batch against an empty directory
creates the draft with one marked entry line and no duplicate marker, and
re-adding a message whose marker is already present leaves the directory
untouched. -/
theorem changelog_no_duplicate_markers_witness :
    readFile (applyOps polishFallback "2026-01-01" "draft.md" (⟨[]⟩ : FS)
        [AddOp.commits ["fix parser"]]) "draft.md" =
      some "---\nversion: 0.1.0\ndate: 2026-01-01\ntag: \n---\n\n# Release 0.1.0\n\n## **Unreleased**\n- fix parser <!-- hash:036ca9f7 -->\n\n<!-- New entries will be added here -->\n\n" ∧
    (splitChar '\n' ("---\nversion: 0.1.0\ndate: 2026-01-01\ntag: \n---\n\n# Release 0.1.0\n\n## **Unreleased**\n- fix parser <!-- hash:036ca9f7 -->\n\n<!-- New entries will be added here -->\n\n" : String).data).countP
      (fun l => endsWithMarker l "036ca9f7") ≤ 1 ∧
    addToChangelog polishFallback "2026-01-01" "draft.md"
      ⟨[("draft.md", "- old entry <!-- hash:036ca9f7 -->")]⟩ (AddOp.custom "fix parser") =
      ⟨[("draft.md", "- old entry <!-- hash:036ca9f7 -->")]⟩ := by
  have hempty : fsInv (⟨[]⟩ : FS) := by
    intro name content hread
    simp [readFile, List.find?] at hread
  have hread : readFile (applyOps polishFallback "2026-01-01" "draft.md" (⟨[]⟩ : FS)
      [AddOp.commits ["fix parser"]]) "draft.md" =
    some "---\nversion: 0.1.0\ndate: 2026-01-01\ntag: \n---\n\n# Release 0.1.0\n\n## **Unreleased**\n- fix parser <!-- hash:036ca9f7 -->\n\n<!-- New entries will be added here -->\n\n" := by
    decide
  refine ⟨hread, ?_, ?_⟩
  · exact (changelog_no_duplicate_markers polishFallback "2026-01-01" "draft.md" ⟨[]⟩
      [AddOp.commits ["fix parser"]]
      polishFallback_no_newline
      (by
        intro op hop
        simp only [List.mem_singleton] at hop
        subst hop
        simp only [opMessages]
        decide)
      (by
        intro op hop
        simp only [List.mem_singleton] at hop
        subst hop
        simp only [opMessages, List.map_cons, List.map_nil]
        exact List.nodup_singleton _)
      (by decide) hempty).1 "draft.md" _ hread "036ca9f7" (by decide) (by decide)
  · exact (changelog_no_duplicate_markers polishFallback "2026-01-01" "draft.md" ⟨[]⟩ []
      polishFallback_no_newline (by simp) (by simp) (by decide) hempty).2
      ⟨[("draft.md", "- old entry <!-- hash:036ca9f7 -->")]⟩ "fix parser" (by decide)
